import Mathlib

/-!
The template scanner of `alt.c` and its byte escaper.

A shallow embedding of `flush_litrun`, `escape` and `process` of `src/alt.c`.

Conventions of the embedding

* A byte is a `Fin 256`; the input buffer `t .. te` is a `List Byte` and a pointer into it
  is the index of the byte it points to (`te` is `buf.length`).
* The output stream `FILE* out` is the list of bytes written to it, in order.
* `int` counters (`lineno`, `litrun`, `len`) are natural numbers: they start at `0` or `1`
  and are only ever incremented; buffers longer than `INT_MAX` are outside the model.
* Whether plain `char` is signed is left to the C implementation, so the conversion
  `int cc = start[i]` takes the signedness as a parameter `sc`.
* The program never calls `setlocale`, so `isprint` and `isspace` are those of the
  "C" locale.
* A read at an index `i ≥ buf.length` is a read outside the buffer; it yields
  `junk (i - buf.length)`, where `junk` stands for whatever memory follows the buffer.
-/

namespace Alt

/-- An 8-bit byte. -/
abbrev Byte := Fin 256

/-- The bytes of a string constant of the source (all of them ASCII). -/
def bytesOf (s : String) : List Byte :=
  s.data.map (fun c => Fin.ofNat c.toNat)

/-- The conversion `char → int` of `int cc = start[i]`: the byte value itself where plain
`char` is unsigned, the two's complement value in `-128 .. 127` where it is signed. -/
def charToInt (sc : Bool) (b : Byte) : Int :=
  if sc && decide (128 ≤ b.val) then (b.val : Int) - 256 else (b.val : Int)

/-- The "C" locale `isprint`: the codes `0x20 .. 0x7E`. (For a negative argument the
standard leaves `isprint` undefined; the usual table lookup answers `0`.) -/
def isprint (cc : Int) : Bool :=
  decide (32 ≤ cc) && decide (cc ≤ 126)

/-- The "C" locale `isspace`: space, `\t`, `\n`, `\v`, `\f`, `\r`. -/
def isspace (b : Byte) : Bool :=
  decide (b.val = 32) || (decide (9 ≤ b.val) && decide (b.val ≤ 13))

/-- Left padding with `'0'` up to a minimum width, as the `0` flag of `printf` does. -/
def zeroPad (width : Nat) (ds : List Char) : List Char :=
  List.replicate (width - ds.length) '0' ++ ds

/-- The text of `printf("%02x", cc)` for an `int` argument: the argument is read as an
`unsigned int` (32 bits), written in lowercase hexadecimal, at least two digits wide. -/
def fmt02x (cc : Int) : List Byte :=
  (zeroPad 2 (Nat.toDigits 16 (cc % 4294967296).toNat)).map (fun c => Fin.ofNat c.toNat)

/-- The text of `printf("%d", n)` for a non-negative `int`. -/
def fmtd (n : Nat) : List Byte :=
  (Nat.toDigits 10 n).map (fun c => Fin.ofNat c.toNat)

/-- The body of the `for` loop of `flush_litrun` (lines 60-75): what is written for one
byte of the literal run. -/
def escByte (sc : Bool) (b : Byte) : List Byte :=
  let cc := charToInt sc b
  if cc = 34 then bytesOf "\\\""
  else if cc = 10 then bytesOf "\\n"
  else if cc = 13 then bytesOf "\\r"
  else if cc = 9 then bytesOf "\\t"
  else if cc = 92 then bytesOf "\\\\"
  else if isprint cc then [b]
  else bytesOf "\\x" ++ fmt02x cc

/-- The text written between the two double quotes by the `for` loop of `flush_litrun`
(line 59): the escapes of the bytes `start[0 .. len)`, in order. -/
def escRun (sc : Bool) : List Byte → List Byte
  | [] => []
  | b :: bs => escByte sc b ++ escRun sc bs

/-- `flush_litrun(start, len, out)`: `run` is the bytes `start[0 .. len)`, the result is
what is written to `out`. -/
def flush_litrun (sc : Bool) (run : List Byte) : List Byte :=
  bytesOf "  emit(\"" ++ escRun sc run ++ (bytesOf "\", " ++ fmtd run.length ++ bytesOf ");\n")

/-- The byte read through a pointer at index `i`: inside the buffer the byte stored there,
outside the buffer whatever the memory behind it holds. -/
def rd (buf : List Byte) (junk : Nat → Byte) (i : Nat) : Byte :=
  (buf[i]?).getD (junk (i - buf.length))

/-- The bytes `start[0 .. len)` as `flush_litrun` reads them. -/
def memSpan (buf : List Byte) (junk : Nat → Byte) (start len : Nat) : List Byte :=
  (List.range len).map (fun i => rd buf junk (start + i))

/-- The local state of `escape` when its copy loop (lines 102-122) is left. -/
structure ScanEnd where
  /-- The pointer `t`. -/
  t : Nat
  /-- The shared line counter `*lineno`. -/
  lineno : Nat
  /-- The bytes written by `putc(cc, out)` in the loop, in order. -/
  copied : List Byte
  /-- The variable `last_out`. -/
  last_out : Nat
  /-- The flag `eat_trailing_ws`. -/
  eat_trailing_ws : Bool
deriving DecidableEq, Repr

/-- The copy loop of `escape` (lines 102-122). `fuel` bounds the number of iterations;
`escape` passes `te - t + 1`, which the loop cannot use up. The lookahead `cn` is read as
`t[1]` on every iteration: the guard `t != te` of line 104 is the loop condition itself. -/
def escapeScan (buf : List Byte) (junk : Nat → Byte) :
    (fuel t lineno : Nat) → (copied : List Byte) → (last_out : Nat) → ScanEnd
  | 0, t, lineno, copied, last_out => ⟨t, lineno, copied, last_out, false⟩
  | fuel + 1, t, lineno, copied, last_out =>
    if t = buf.length then ⟨t, lineno, copied, last_out, false⟩
    else
      let cc := rd buf junk t
      let cn := rd buf junk (t + 1)
      let lineno := if cc.val = 10 then lineno + 1 else lineno
      if cc.val = 42 ∧ cn.val = 47 then
        ⟨t + 2, lineno, copied, last_out, false⟩
      else if cc.val = 45 ∧ cn.val = 42 ∧
          (if t + 2 = buf.length then 0 else (rd buf junk (t + 2)).val) = 47 then
        ⟨t + 3, lineno, copied, last_out, true⟩
      else
        escapeScan buf junk fuel (t + 1) lineno (copied ++ [cc]) cc.val

/-- The trailing-whitespace loop of `escape` (lines 127-133), returning the pointer and the
line counter. `fuel` bounds the number of iterations; `escape` passes `te - t + 1`. -/
def eatWs (buf : List Byte) (junk : Nat → Byte) : (fuel t lineno : Nat) → Nat × Nat
  | 0, t, lineno => (t, lineno)
  | fuel + 1, t, lineno =>
    if t ≠ buf.length ∧ isspace (rd buf junk t) = true then
      if (rd buf junk (t + 1)).val = 10 then (t + 1, lineno + 1)
      else eatWs buf junk fuel (t + 1) lineno
    else (t, lineno)

/-- What a call of `escape` leaves behind. -/
structure EscOut where
  /-- The returned pointer. -/
  t : Nat
  /-- The line counter `*lineno` on return. -/
  lineno : Nat
  /-- The bytes the call wrote to `out`, in order. -/
  out : List Byte
deriving DecidableEq, Repr

/-- The line `#line N "fn"` written first by `escape` (line 91). -/
def lineDirective (fn : List Byte) (lineno : Nat) : List Byte :=
  bytesOf "#line " ++ fmtd lineno ++ bytesOf " \"" ++ fn ++ bytesOf "\"\n"

/-- `escape(t, te, fn, out, &lineno)` (lines 85-145); `te` is `buf.length` and `lineno` is
the value of the shared counter on entry. -/
def escape (buf : List Byte) (junk : Nat → Byte) (fn : List Byte) (t lineno : Nat) : EscOut :=
  let is_expr : Bool := decide (t ≠ buf.length) && decide ((rd buf junk t).val = 45)
  let t0 := if is_expr then t + 1 else t
  let s := escapeScan buf junk (buf.length - t0 + 1) t0 lineno [] 0
  let e := if s.eat_trailing_ws then eatWs buf junk (buf.length - s.t + 1) s.t s.lineno
    else (s.t, s.lineno)
  let opening := if is_expr then bytesOf "  emit_expr(" else []
  let closing := if is_expr then bytesOf ");\n"
    else if s.last_out ≠ 10 then bytesOf "\n" else []
  ⟨e.1, e.2, lineDirective fn lineno ++ opening ++ s.copied ++ closing⟩

/-- The calls `process` makes, in the order it makes them. `process` itself writes nothing:
all output comes from these calls. -/
inductive Call where
  /-- The call `flush_litrun(litstart, litrun, out)`. -/
  | flush (litstart litrun : Nat)
  /-- The call `escape(t, te, fn, out, &lineno)`, with the value of `lineno` on entry and
  what the call left behind. -/
  | escape (t lineno : Nat) (r : EscOut)
deriving DecidableEq, Repr

/-- A run of `process`: the calls made, and whether the driver loop was left with `t == te`.
When `escape` returns a pointer beyond `te`, the loop condition `t != te` can no longer
become false and every further read is outside the buffer; the run is then recorded up to
that call, with `finished = false`. -/
structure Run where
  /-- The calls made, in order. -/
  calls : List Call
  /-- Whether the loop of `process` ended at `te`. -/
  finished : Bool
deriving DecidableEq, Repr

/-- The driver loop of `process` (lines 159-179) followed by the final flush (lines
181-183). `fuel` bounds the number of iterations; `process` passes `len + 1`. -/
def processLoop (buf : List Byte) (junk : Nat → Byte) (fn : List Byte) :
    (fuel t lineno litstart litrun : Nat) → Run
  | 0, _, _, _, _ => ⟨[], false⟩
  | fuel + 1, t, lineno, litstart, litrun =>
    if t = buf.length then
      ⟨if 0 < litrun then [Call.flush litstart litrun] else [], true⟩
    else if buf.length < t then ⟨[], false⟩
    else
      let cc := rd buf junk t
      let t1 := t + 1
      let cn : Nat := if t1 ≠ buf.length then (rd buf junk t1).val else 0
      let lineno := if cc.val = 10 then lineno + 1 else lineno
      if cc.val = 47 ∧ cn = 42 then
        let flushed := if 0 < litrun then [Call.flush litstart litrun] else []
        let r := escape buf junk fn (t1 + 1) lineno
        let rest := processLoop buf junk fn fuel r.t r.lineno litstart 0
        ⟨flushed ++ Call.escape (t1 + 1) lineno r :: rest.calls, rest.finished⟩
      else
        let rest := processLoop buf junk fn fuel t1 lineno
          (if litrun = 0 then t1 - 1 else litstart) (litrun + 1)
        rest

/-- `process(t, len, fn, out)` (lines 152-184) as the run it performs. -/
def process (buf : List Byte) (junk : Nat → Byte) (fn : List Byte) : Run :=
  processLoop buf junk fn (buf.length + 1) 0 1 0 0

/-- The bytes one call writes to `out`. -/
def Call.written (sc : Bool) (buf : List Byte) (junk : Nat → Byte) : Call → List Byte
  | .flush litstart litrun => flush_litrun sc (memSpan buf junk litstart litrun)
  | .escape _ _ r => r.out

/-- The bytes a sequence of calls writes to `out`. -/
def writtenBy (sc : Bool) (buf : List Byte) (junk : Nat → Byte) : List Call → List Byte
  | [] => []
  | c :: cs => c.written sc buf junk ++ writtenBy sc buf junk cs

/-- The contents of the output stream after `process`. -/
def output (sc : Bool) (buf : List Byte) (junk : Nat → Byte) (fn : List Byte) : List Byte :=
  writtenBy sc buf junk (process buf junk fn).calls

/-! ## The reads of the scan

The same loops once more, returning the indices at which the buffer pointer is
dereferenced, in order. `flush_litrun` is left out: it reads `start[0 .. len)` and nothing
else. -/

/-- The indices read by the copy loop of `escape` (lines 103-113): `*t` and `t[1]` on every
iteration, and `t[2]` where the test of line 113 gets as far as its third operand with
`t + 2 != te`. -/
def escapeScanReads (buf : List Byte) (junk : Nat → Byte) : (fuel t : Nat) → List Nat
  | 0, _ => []
  | fuel + 1, t =>
    if t = buf.length then []
    else
      let cc := rd buf junk t
      let cn := rd buf junk (t + 1)
      if cc.val = 42 ∧ cn.val = 47 then [t, t + 1]
      else if cc.val = 45 ∧ cn.val = 42 then
        if t + 2 = buf.length then [t, t + 1] ++ escapeScanReads buf junk fuel (t + 1)
        else if (rd buf junk (t + 2)).val = 47 then [t, t + 1, t + 2]
        else [t, t + 1, t + 2] ++ escapeScanReads buf junk fuel (t + 1)
      else [t, t + 1] ++ escapeScanReads buf junk fuel (t + 1)

/-- The indices read by the trailing-whitespace loop of `escape` (lines 127-129): `*t` in
the loop condition when `t != te`, and `*t` again after `++t`. -/
def eatWsReads (buf : List Byte) (junk : Nat → Byte) : (fuel t : Nat) → List Nat
  | 0, _ => []
  | fuel + 1, t =>
    if t = buf.length then []
    else if isspace (rd buf junk t) = true then
      if (rd buf junk (t + 1)).val = 10 then [t, t + 1]
      else [t, t + 1] ++ eatWsReads buf junk fuel (t + 1)
    else [t]

/-- The indices read by a call of `escape`: the test of line 96, the copy loop, the
trailing-whitespace loop. -/
def escapeReads (buf : List Byte) (junk : Nat → Byte) (t lineno : Nat) : List Nat :=
  let is_expr : Bool := decide (t ≠ buf.length) && decide ((rd buf junk t).val = 45)
  let t0 := if is_expr then t + 1 else t
  let s := escapeScan buf junk (buf.length - t0 + 1) t0 lineno [] 0
  (if t ≠ buf.length then [t] else []) ++
    escapeScanReads buf junk (buf.length - t0 + 1) t0 ++
    (if s.eat_trailing_ws then eatWsReads buf junk (buf.length - s.t + 1) s.t else [])

/-- The indices read by the driver loop of `process` and by the calls of `escape` it makes:
`*t++` (line 160), the lookahead `t[0]` when `t != te` (line 161), and the reads of
`escape`. -/
def processReads (buf : List Byte) (junk : Nat → Byte) (fn : List Byte) :
    (fuel t lineno : Nat) → List Nat
  | 0, _, _ => []
  | fuel + 1, t, lineno =>
    if t = buf.length then []
    else if buf.length < t then []
    else
      let cc := rd buf junk t
      let t1 := t + 1
      let cn : Nat := if t1 ≠ buf.length then (rd buf junk t1).val else 0
      let here := if t1 ≠ buf.length then [t, t1] else [t]
      let lineno := if cc.val = 10 then lineno + 1 else lineno
      if cc.val = 47 ∧ cn = 42 then
        let r := escape buf junk fn (t1 + 1) lineno
        here ++ escapeReads buf junk (t1 + 1) lineno ++ processReads buf junk fn fuel r.t r.lineno
      else
        here ++ processReads buf junk fn fuel t1 lineno

/-- The indices read by the scan of `process(t, len, fn, out)`, in order. -/
def scanReads (buf : List Byte) (junk : Nat → Byte) (fn : List Byte) : List Nat :=
  processReads buf junk fn (buf.length + 1) 0 1

/-! ## Vocabulary of the properties -/

/-- Whether the byte `a` immediately followed by the byte `b` occurs in the list. -/
def hasPair (a b : Nat) : List Byte → Bool
  | x :: y :: r => (decide (x.val = a) && decide (y.val = b)) || hasPair a b (y :: r)
  | _ => false

/-- The number of newline bytes in a list. -/
def newlines : List Byte → Nat
  | [] => 0
  | c :: r => (if c.val = 10 then 1 else 0) + newlines r

/-- The value of `last_out` after the bytes of a list were copied, starting from `l`. -/
def lastOut (l : Nat) : List Byte → Nat
  | [] => l
  | c :: r => lastOut c.val r

/-- The lowercase hexadecimal digit of a value below 16. -/
def hexDigit (d : Nat) : Byte :=
  if d < 10 then Fin.ofNat (48 + d) else Fin.ofNat (87 + d)

/-- The value of a hexadecimal digit, `none` for any other byte. -/
def hexVal (c : Byte) : Option Nat :=
  if 48 ≤ c.val ∧ c.val ≤ 57 then some (c.val - 48)
  else if 97 ≤ c.val ∧ c.val ≤ 102 then some (c.val - 87)
  else if 65 ≤ c.val ∧ c.val ≤ 70 then some (c.val - 55)
  else none

/-- The Byte Escaper mapping as the specification words it: the five two-character
escapes, every other printable byte itself, every other byte as backslash, `x` and two
lowercase hexadecimal digits. -/
def escapeSpec (b : Byte) : List Byte :=
  if b.val = 34 then [92, 34]
  else if b.val = 10 then [92, 110]
  else if b.val = 13 then [92, 114]
  else if b.val = 9 then [92, 116]
  else if b.val = 92 then [92, 92]
  else if 32 ≤ b.val ∧ b.val ≤ 126 then [b]
  else [92, 120, hexDigit (b.val / 16), hexDigit (b.val % 16)]

/-- The inverse of the Byte Escaper mapping: a two-character escape goes back to its byte,
backslash, `x` and two hexadecimal digits go back to the byte of that value, any other
character stands for itself. `none` where a backslash starts none of these. -/
def unescape : List Byte → Option (List Byte)
  | [] => some []
  | c :: r =>
    if c.val ≠ 92 then (unescape r).map (fun bs => c :: bs)
    else
      match r with
      | [] => none
      | d :: r2 =>
        if d.val = 34 then (unescape r2).map (fun bs => 34 :: bs)
        else if d.val = 110 then (unescape r2).map (fun bs => 10 :: bs)
        else if d.val = 114 then (unescape r2).map (fun bs => 13 :: bs)
        else if d.val = 116 then (unescape r2).map (fun bs => 9 :: bs)
        else if d.val = 92 then (unescape r2).map (fun bs => 92 :: bs)
        else if d.val = 120 then
          match r2 with
          | h :: l :: r3 =>
            match hexVal h, hexVal l with
            | some x, some y => (unescape r3).map (fun bs => Fin.ofNat (16 * x + y) :: bs)
            | _, _ => none
          | _ => none
        else none

/-- The longest run of hexadecimal digits at the head of a list: its value (continuing
from `acc`), the number of digits, and what follows the run. -/
def takeHex : List Byte → Nat → Nat → Nat × Nat × List Byte
  | [], acc, n => (acc, n, [])
  | c :: r, acc, n =>
    match hexVal c with
    | some v => takeHex r (16 * acc + v) (n + 1)
    | none => (acc, n, c :: r)

/-- The bytes denoted by the body of a C or C++ string literal, for the escapes the Byte
Escaper writes: the simple escapes `\"`, `\n`, `\r`, `\t`, `\\`, and the hexadecimal
escape, which is `\x` followed by the longest run of hexadecimal digits. `none` where the
text is not the body of a literal: an unescaped double quote, an escape not listed, a
hexadecimal escape without digits or with a value that does not fit a byte, or a lone
backslash at the end. `fuel` bounds the number of characters read. -/
def cStringBody : Nat → List Byte → Option (List Byte)
  | 0, _ => none
  | _ + 1, [] => some []
  | fuel + 1, c :: r =>
    if c.val = 34 then none
    else if c.val ≠ 92 then (cStringBody fuel r).map (fun bs => c :: bs)
    else
      match r with
      | [] => none
      | d :: r2 =>
        if d.val = 34 then (cStringBody fuel r2).map (fun bs => 34 :: bs)
        else if d.val = 110 then (cStringBody fuel r2).map (fun bs => 10 :: bs)
        else if d.val = 114 then (cStringBody fuel r2).map (fun bs => 13 :: bs)
        else if d.val = 116 then (cStringBody fuel r2).map (fun bs => 9 :: bs)
        else if d.val = 92 then (cStringBody fuel r2).map (fun bs => 92 :: bs)
        else if d.val = 120 then
          match takeHex r2 0 0 with
          | (v, n, r3) =>
            if n = 0 ∨ 255 < v then none
            else (cStringBody fuel r3).map (fun bs => Fin.ofNat v :: bs)
        else none

/-- The bytes denoted by a text read as the body of a C or C++ string literal. -/
def cStringBytes (e : List Byte) : Option (List Byte) :=
  cStringBody (e.length + 1) e

/-- The text of one `emit` statement with quoted text `e` and length argument `n`. -/
def emitStmt (e : List Byte) (n : Nat) : List Byte :=
  bytesOf "  emit(\"" ++ e ++ (bytesOf "\", " ++ fmtd n ++ bytesOf ");\n")

/-- Where the part of the buffer handled by a call begins: a literal run at its first
byte, an escape block at its opening marker, two bytes before the pointer given to
`escape`. -/
def Call.start : Call → Nat
  | .flush litstart _ => litstart
  | .escape t _ _ => t - 2

/-- Where the part of the buffer handled by a call ends: a literal run after its last
byte, an escape block at the pointer `escape` returns. -/
def Call.stop : Call → Nat
  | .flush litstart litrun => litstart + litrun
  | .escape _ _ r => r.t

/-- The parts handled by a sequence of calls follow each other without gap or overlap,
starting at `a` and ending at `b`. -/
def Tiles : Nat → List Call → Nat → Prop
  | a, [], b => a = b
  | a, c :: cs, b => c.start = a ∧ c.start ≤ c.stop ∧ Tiles c.stop cs b

/-- The bytes of the parts handled by a sequence of calls, concatenated in order. -/
def handled (buf : List Byte) (junk : Nat → Byte) : List Call → List Byte
  | [] => []
  | c :: cs => memSpan buf junk c.start (c.stop - c.start) ++ handled buf junk cs

/-- The line numbers printed in the `#line` directives of a run, with the pointer given to
the call of `escape` that printed each. -/
def directives : List Call → List (Nat × Nat)
  | [] => []
  | .flush _ _ :: cs => directives cs
  | .escape t lineno _ :: cs => (t, lineno) :: directives cs

/-- The calls of `flush_litrun` in a run, as the pairs of `litstart` and `litrun`. -/
def flushes : List Call → List (Nat × Nat)
  | [] => []
  | .flush litstart litrun :: cs => (litstart, litrun) :: flushes cs
  | .escape _ _ _ :: cs => flushes cs

/-- The calls of `escape` in a run, as the pairs of the pointer given and the pointer
returned. -/
def escapeSpans : List Call → List (Nat × Nat)
  | [] => []
  | .flush _ _ :: cs => escapeSpans cs
  | .escape t _ r :: cs => (t, r.t) :: escapeSpans cs

/-- Whether a text, read from the left as the body of a string literal, holds a double
quote that ends the literal: a backslash takes the character after it along, any other
double quote ends the literal. -/
def hasBareQuote : List Byte → Bool
  | [] => false
  | [c] => decide (c.val = 34)
  | c :: d :: r =>
    if c.val = 92 then hasBareQuote r
    else decide (c.val = 34) || hasBareQuote (d :: r)

/-- A piece of quoted text after which the reading of a string literal goes on as before
it: a single byte other than the double quote and the backslash, or a backslash, the byte
it takes along, and bytes other than the double quote and the backslash. -/
def quoteSafe : List Byte → Bool
  | [] => false
  | [c] => decide (c.val ≠ 34) && decide (c.val ≠ 92)
  | c :: _ :: tl =>
    decide (c.val = 92) && tl.all (fun x => decide (x.val ≠ 34) && decide (x.val ≠ 92))

/-- Whether a text begins with the text `p`. -/
def beginsWith : List Byte → List Byte → Bool
  | [], _ => true
  | _ :: _, [] => false
  | a :: p, c :: l => decide (a = c) && beginsWith p l

/-- Whether a line of a text begins with `p`. A line begins where the text begins, when
`atStart` says that the text is read from the beginning of a line, and after every
newline byte. -/
def hasLine (p : List Byte) : Bool → List Byte → Bool
  | _, [] => false
  | atStart, c :: r =>
    (atStart && beginsWith p (c :: r)) || hasLine p (decide (c.val = 10)) r

end Alt


namespace Alt

/-! ## The Byte Escaper -/

set_option maxRecDepth 1000000 in
/-- Where plain `char` is unsigned, the loop body of `flush_litrun` writes for every byte
exactly what the specified mapping says. -/
theorem escByte_unsigned (b : Byte) : escByte false b = escapeSpec b := by
  revert b; decide

/-- A byte below `0x80` converts to the same `int` whether plain `char` is signed or not. -/
theorem charToInt_low (sc : Bool) (b : Byte) (h : b.val < 128) :
    charToInt sc b = charToInt false b := by
  have h2 : ¬ 128 ≤ b.val := by omega
  simp [charToInt, h2]

/-- For a byte whose conversion to `int` does not depend on the signedness of `char`, the
loop body of `flush_litrun` writes what the specified mapping says. -/
theorem escByte_eq_spec (sc : Bool) (b : Byte) (h : sc = false ∨ b.val < 128) :
    escByte sc b = escapeSpec b := by
  rw [← escByte_unsigned]
  rcases h with h | h
  · rw [h]
  · simp only [escByte, charToInt_low sc b h]

set_option maxRecDepth 1000000 in
/-- The two hexadecimal digits of a byte read back as its high and low half. -/
theorem hexVal_hexDigit (b : Byte) :
    hexVal (hexDigit (b.val / 16)) = some (b.val / 16) ∧
    hexVal (hexDigit (b.val % 16)) = some (b.val % 16) := by
  revert b; decide

/-- A byte other than the backslash is read back as itself. -/
theorem unescape_plain (c : Byte) (r : List Byte) (h : c.val ≠ 92) :
    unescape (c :: r) = (unescape r).map (fun bs => c :: bs) := by
  rw [unescape.eq_def]
  simp only []
  rw [if_pos h]

/-- Backslash, `x` and two hexadecimal digits are read back as one byte. -/
theorem unescape_hex (h l : Byte) (r : List Byte) (x y : Nat)
    (hx : hexVal h = some x) (hy : hexVal l = some y) :
    unescape (92 :: 120 :: h :: l :: r) =
      (unescape r).map (fun bs => Fin.ofNat (16 * x + y) :: bs) := by
  rw [unescape.eq_def]
  simp only []
  rw [if_neg (by decide), if_neg (by decide), if_neg (by decide), if_neg (by decide),
    if_neg (by decide), if_neg (by decide), if_pos (by decide), hx, hy]

/-- Undoing the escape of one byte in front of any text gives the byte back. -/
theorem unescape_escapeSpec (b : Byte) (rest : List Byte) :
    unescape (escapeSpec b ++ rest) = (unescape rest).map (fun bs => b :: bs) := by
  have hb : (Fin.ofNat (16 * (b.val / 16) + b.val % 16) : Byte) = b := by
    apply Fin.ext
    have := b.isLt
    simp only [Fin.ofNat, Nat.div_add_mod]
    omega
  unfold escapeSpec
  split_ifs with h1 h2 h3 h4 h5 h6
  · have : b = 34 := Fin.ext h1
    subst this
    show unescape (92 :: 34 :: rest) = _
    rw [unescape.eq_def]
    simp only []
    rw [if_neg (by decide), if_pos (by decide)]
  · have : b = 10 := Fin.ext h2
    subst this
    show unescape (92 :: 110 :: rest) = _
    rw [unescape.eq_def]
    simp only []
    rw [if_neg (by decide), if_neg (by decide), if_pos (by decide)]
  · have : b = 13 := Fin.ext h3
    subst this
    show unescape (92 :: 114 :: rest) = _
    rw [unescape.eq_def]
    simp only []
    rw [if_neg (by decide), if_neg (by decide), if_neg (by decide), if_pos (by decide)]
  · have : b = 9 := Fin.ext h4
    subst this
    show unescape (92 :: 116 :: rest) = _
    rw [unescape.eq_def]
    simp only []
    rw [if_neg (by decide), if_neg (by decide), if_neg (by decide), if_neg (by decide),
      if_pos (by decide)]
  · have : b = 92 := Fin.ext h5
    subst this
    show unescape (92 :: 92 :: rest) = _
    rw [unescape.eq_def]
    simp only []
    rw [if_neg (by decide), if_neg (by decide), if_neg (by decide), if_neg (by decide),
      if_neg (by decide), if_pos (by decide)]
  · exact unescape_plain b rest h5
  · have e := unescape_hex (hexDigit (b.val / 16)) (hexDigit (b.val % 16)) rest _ _
      (hexVal_hexDigit b).1 (hexVal_hexDigit b).2
    rw [hb] at e
    exact e

/-- Undoing the escapes of a literal run gives the run back, as long as no byte of it
converts to a negative `int`. -/
theorem unescape_escRun (sc : Bool) (run : List Byte)
    (h : sc = false ∨ ∀ b ∈ run, b.val < 128) :
    unescape (escRun sc run) = some run := by
  induction run with
  | nil => simp [escRun, unescape]
  | cons b bs ih =>
    have hb : sc = false ∨ b.val < 128 := by
      rcases h with h | h
      · exact Or.inl h
      · exact Or.inr (h b (List.mem_cons_self b bs))
    have hbs : sc = false ∨ ∀ x ∈ bs, x.val < 128 := by
      rcases h with h | h
      · exact Or.inl h
      · exact Or.inr (fun x hx => h x (List.mem_cons_of_mem b hx))
    simp [escRun, escByte_eq_spec sc b hb, unescape_escapeSpec, ih hbs]

/-! ## Reading the buffer -/

/-- A byte is determined by its value. -/
theorem byte_of_val (c n : Byte) (h : c.val = n.val) : c = n := Fin.ext h

/-- A byte of the part of the buffer that starts at `t` is what a read at its index gives. -/
theorem rd_of_drop (buf : List Byte) (junk : Nat → Byte) (t i : Nat) (suf : List Byte)
    (c : Byte) (h : buf.drop t = suf) (hc : suf[i]? = some c) : rd buf junk (t + i) = c := by
  have e : buf[t + i]? = some c := by
    rw [← List.getElem?_drop, h, hc]
  simp [rd, e]

/-- The first byte of the part of the buffer that starts at `t` is the byte read at `t`. -/
theorem rd_head (buf : List Byte) (junk : Nat → Byte) (t : Nat) (c : Byte) (r : List Byte)
    (h : buf.drop t = c :: r) : rd buf junk t = c :=
  rd_of_drop buf junk t 0 (c :: r) c h (by simp)

/-- Moving the pointer by one drops the first byte of what is left. -/
theorem drop_succ_of_drop (buf : List Byte) (t : Nat) (c : Byte) (r : List Byte)
    (h : buf.drop t = c :: r) : buf.drop (t + 1) = r := by
  rw [← List.tail_drop, h]
  rfl

/-- Moving the pointer over a part of what is left drops that part. -/
theorem drop_add_of_drop (buf : List Byte) (t : Nat) (a r : List Byte)
    (h : buf.drop t = a ++ r) : buf.drop (t + a.length) = r := by
  rw [← List.drop_drop, h]
  simp

/-- The length of the buffer, from what is left at `t` when that is not empty. -/
theorem length_of_drop (buf : List Byte) (t : Nat) (c : Byte) (r : List Byte)
    (h : buf.drop t = c :: r) : buf.length = t + (r.length + 1) := by
  have e := congrArg List.length h
  rw [List.length_drop] at e
  simp only [List.length_cons] at e
  omega

/-- The bytes of a literal run that lies inside the buffer. -/
theorem memSpan_of_drop (buf : List Byte) (junk : Nat → Byte) (a : List Byte) :
    ∀ (t : Nat) (r : List Byte), buf.drop t = a ++ r → memSpan buf junk t a.length = a := by
  induction a using List.reverseRecOn with
  | nil => intro t r _; rfl
  | append_singleton a c ih =>
    intro t r h
    have h1 : buf.drop t = a ++ (c :: r) := by simpa using h
    have e := rd_of_drop buf junk t a.length (a ++ (c :: r)) c h1
      (by rw [List.getElem?_append_right (le_refl _)]; simp)
    have ih1 := ih t (c :: r) h1
    unfold memSpan at ih1 ⊢
    rw [List.length_append, List.length_singleton, List.range_succ, List.map_append, ih1]
    simp [e]

/-! ## The copy loop of `escape` -/

/-- One iteration of the copy loop at a byte where no closing marker is recognised. -/
theorem escapeScan_step (buf : List Byte) (junk : Nat → Byte) (fuel t lineno : Nat)
    (copied : List Byte) (last : Nat) (c : Byte) (r : List Byte)
    (h : buf.drop t = c :: r)
    (h1 : ¬ (c.val = 42 ∧ (rd buf junk (t + 1)).val = 47))
    (h2 : ¬ (c.val = 45 ∧ (rd buf junk (t + 1)).val = 42 ∧ (rd buf junk (t + 2)).val = 47)) :
    escapeScan buf junk (fuel + 1) t lineno copied last =
      escapeScan buf junk fuel (t + 1) (lineno + newlines [c]) (copied ++ [c]) c.val := by
  have hlen := length_of_drop buf t c r h
  have hne : t ≠ buf.length := by omega
  have hc := rd_head buf junk t c r h
  have h3 : ¬ (c.val = 45 ∧ (rd buf junk (t + 1)).val = 42 ∧
      (if t + 2 = buf.length then 0 else (rd buf junk (t + 2)).val) = 47) := by
    intro ⟨a, b, d⟩
    split_ifs at d with g
    exact h2 ⟨a, b, d⟩
  have hl : (if c.val = 10 then lineno + 1 else lineno) = lineno + newlines [c] := by
    simp only [newlines]
    split_ifs <;> omega
  simp only [escapeScan, if_neg hne, hc, if_neg h1, if_neg h3, hl]

/-- The iteration of the copy loop at the plain closing marker. -/
theorem escapeScan_plain_close (buf : List Byte) (junk : Nat → Byte) (fuel t lineno : Nat)
    (copied : List Byte) (last : Nat) (rest : List Byte)
    (h : buf.drop t = 42 :: 47 :: rest) :
    escapeScan buf junk (fuel + 1) t lineno copied last =
      ⟨t + 2, lineno, copied, last, false⟩ := by
  have hlen := length_of_drop buf t _ _ h
  have hne : t ≠ buf.length := by omega
  have hc := rd_head buf junk t _ _ h
  have hn := rd_of_drop buf junk t 1 _ 47 h (by simp)
  have h1 : (42 : Byte).val = 42 ∧ (47 : Byte).val = 47 := by decide
  have hl : ¬ (42 : Byte).val = 10 := by decide
  simp only [escapeScan, if_neg hne, hc, hn, if_pos h1, if_neg hl]

/-- The iteration of the copy loop at the trim closing marker. -/
theorem escapeScan_trim_close (buf : List Byte) (junk : Nat → Byte) (fuel t lineno : Nat)
    (copied : List Byte) (last : Nat) (rest : List Byte)
    (h : buf.drop t = 45 :: 42 :: 47 :: rest) :
    escapeScan buf junk (fuel + 1) t lineno copied last =
      ⟨t + 3, lineno, copied, last, true⟩ := by
  have hlen := length_of_drop buf t _ _ h
  simp only [List.length_cons] at hlen
  have hne : t ≠ buf.length := by omega
  have hne2 : ¬ t + 2 = buf.length := by omega
  have hc := rd_head buf junk t _ _ h
  have hn := rd_of_drop buf junk t 1 _ 42 h (by simp)
  have hn2 := rd_of_drop buf junk t 2 _ 47 h (by simp)
  have h1 : ¬ ((45 : Byte).val = 42 ∧ (42 : Byte).val = 47) := by decide
  have h2 : (45 : Byte).val = 45 ∧ (42 : Byte).val = 42 ∧ (47 : Byte).val = 47 := by decide
  have hl : ¬ (45 : Byte).val = 10 := by decide
  simp only [escapeScan, if_neg hne, hc, hn, hn2, if_neg hne2, if_neg h1, if_pos h2, if_neg hl]

/-- A pair absent from a list is not formed by its first two bytes and is absent from its
tail. -/
theorem hasPair_cons_cons (a b : Nat) (x y : Byte) (r : List Byte)
    (h : hasPair a b (x :: y :: r) = false) :
    ¬ (x.val = a ∧ y.val = b) ∧ hasPair a b (y :: r) = false := by
  simp only [hasPair, Bool.or_eq_false_iff, Bool.and_eq_false_iff, decide_eq_false_iff_not] at h
  refine ⟨?_, h.2⟩
  intro ⟨p, q⟩
  rcases h.1 with g | g
  · exact g p
  · exact g q

/-- A pair absent from a list is absent from its tail. -/
theorem hasPair_tail (a b : Nat) (x : Byte) (r : List Byte)
    (h : hasPair a b (x :: r) = false) : hasPair a b r = false := by
  cases r with
  | nil => rfl
  | cons y r => exact (hasPair_cons_cons a b x y r h).2

/-- The copy loop over a stretch `C` of block content inside which, followed by the bytes
`x0`, `x1`, no closing marker is recognised: every byte of `C` is copied. -/
theorem escapeScan_copy (buf : List Byte) (junk : Nat → Byte) (x0 x1 : Byte) (X : List Byte)
    (hx0 : x0.val ≠ 47) :
    ∀ (C : List Byte) (k t lineno : Nat) (copied : List Byte) (last : Nat),
      buf.drop t = C ++ x0 :: x1 :: X →
      hasPair 42 47 C = false →
      (∀ c, C.getLast? = some c → c.val = 45 → ¬ (x0.val = 42 ∧ x1.val = 47)) →
      escapeScan buf junk (C.length + k) t lineno copied last =
        escapeScan buf junk k (t + C.length) (lineno + newlines C) (copied ++ C)
          (lastOut last C) := by
  intro C
  induction C with
  | nil =>
    intro k t lineno copied last _ _ _
    simp [newlines, lastOut]
  | cons c C ih =>
    intro k t lineno copied last h hp hd
    have hfuel : (c :: C).length + k = (C.length + k) + 1 := by
      simp only [List.length_cons]; omega
    have h0 : buf.drop t = c :: (C ++ x0 :: x1 :: X) := by simpa using h
    have hnext := drop_succ_of_drop buf t c _ h0
    have h12 : ¬ (c.val = 42 ∧ (rd buf junk (t + 1)).val = 47) ∧
        ¬ (c.val = 45 ∧ (rd buf junk (t + 1)).val = 42 ∧ (rd buf junk (t + 2)).val = 47) := by
      rcases C with _ | ⟨d, _ | ⟨e, C⟩⟩
      · have e1 := rd_of_drop buf junk t 1 _ x0 h0 (by simp)
        have e2 := rd_of_drop buf junk t 2 _ x1 h0 (by simp)
        rw [e1, e2]
        refine ⟨fun g => hx0 g.2, fun g => ?_⟩
        exact hd c (by simp) g.1 g.2
      · have e1 := rd_of_drop buf junk t 1 _ d h0 (by simp)
        have e2 := rd_of_drop buf junk t 2 _ x0 h0 (by simp)
        rw [e1, e2]
        exact ⟨(hasPair_cons_cons 42 47 c d [] hp).1, fun g => hx0 g.2.2⟩
      · have e1 := rd_of_drop buf junk t 1 _ d h0 (by simp)
        have e2 := rd_of_drop buf junk t 2 _ e h0 (by simp)
        rw [e1, e2]
        have p1 := hasPair_cons_cons 42 47 c d (e :: C) hp
        have p2 := hasPair_cons_cons 42 47 d e C p1.2
        exact ⟨p1.1, fun g => p2.1 g.2⟩
    rw [hfuel, escapeScan_step buf junk _ t lineno copied last c _ h0 h12.1 h12.2,
      ih k (t + 1) _ _ _ hnext (hasPair_tail 42 47 c C hp)]
    · have hl : lineno + newlines [c] + newlines C = lineno + newlines (c :: C) := by
        simp only [newlines]; omega
      have ht : t + 1 + C.length = t + (c :: C).length := by
        simp only [List.length_cons]; omega
      rw [hl, ht]
      simp [lastOut]
    · intro c2 hc2 h45
      cases C with
      | nil => simp at hc2
      | cons d C => exact hd c2 (by rw [List.getLast?_cons_cons]; exact hc2) h45

/-- The copy loop on a block whose content `C` is ended by the plain closing marker. -/
theorem escapeScan_plain (buf : List Byte) (junk : Nat → Byte) (C rest : List Byte)
    (fuel t lineno : Nat) (copied : List Byte) (last : Nat)
    (h : buf.drop t = C ++ 42 :: 47 :: rest) (hp : hasPair 42 47 C = false)
    (hd : C.getLast? ≠ some 45) (hf : C.length < fuel) :
    escapeScan buf junk fuel t lineno copied last =
      ⟨t + C.length + 2, lineno + newlines C, copied ++ C, lastOut last C, false⟩ := by
  obtain ⟨k, rfl⟩ : ∃ k, fuel = C.length + (k + 1) := ⟨fuel - C.length - 1, by omega⟩
  rw [escapeScan_copy buf junk 42 47 rest (by decide) C (k + 1) t lineno copied last h hp
    (fun c hc h45 _ => hd (by rw [hc, byte_of_val c 45 h45]))]
  exact escapeScan_plain_close buf junk k _ _ _ _ rest (drop_add_of_drop buf t C _ h)

/-- The copy loop on a block whose content `C` is ended by the trim closing marker. -/
theorem escapeScan_trim (buf : List Byte) (junk : Nat → Byte) (C rest : List Byte)
    (fuel t lineno : Nat) (copied : List Byte) (last : Nat)
    (h : buf.drop t = C ++ 45 :: 42 :: 47 :: rest) (hp : hasPair 42 47 C = false)
    (hf : C.length < fuel) :
    escapeScan buf junk fuel t lineno copied last =
      ⟨t + C.length + 3, lineno + newlines C, copied ++ C, lastOut last C, true⟩ := by
  obtain ⟨k, rfl⟩ : ∃ k, fuel = C.length + (k + 1) := ⟨fuel - C.length - 1, by omega⟩
  rw [escapeScan_copy buf junk 45 42 (47 :: rest) (by decide) C (k + 1) t lineno copied last h hp
    (fun c _ _ g => absurd g.1 (by decide))]
  exact escapeScan_trim_close buf junk k _ _ _ _ rest (drop_add_of_drop buf t C _ h)

/-- The value of `last_out` after a copy, in terms of the last byte copied. -/
theorem lastOut_eq (C : List Byte) : ∀ l : Nat,
    lastOut l C = (match C.getLast? with | some c => c.val | none => l) := by
  induction C with
  | nil => intro l; rfl
  | cons c C ih =>
    intro l
    rw [lastOut, ih]
    cases C with
    | nil => rfl
    | cons d C =>
      obtain ⟨x, hx⟩ : ∃ x, (d :: C).getLast? = some x :=
        ⟨_, List.getLast?_eq_getLast _ (by simp)⟩
      rw [List.getLast?_cons_cons, hx]

/-- After a copy that started with `last_out = 0`, `last_out` is the newline exactly when the
copied text ends in a newline. -/
theorem lastOut_newline (C : List Byte) : lastOut 0 C = 10 ↔ C.getLast? = some 10 := by
  rw [lastOut_eq]
  cases h : C.getLast? with
  | none => simp
  | some c =>
    simp only [Option.some.injEq]
    exact ⟨fun g => byte_of_val c 10 g, fun g => by rw [g]; rfl⟩

/-! ## `escape` on a block that is closed -/

/-- A statement block closed by the plain marker: the pointer returned, the line counter
and the output. -/
theorem escape_stmt_plain (buf : List Byte) (junk : Nat → Byte) (fn C rest : List Byte)
    (t lineno : Nat)
    (h : buf.drop t = C ++ 42 :: 47 :: rest) (hh : C.head? ≠ some 45)
    (hp : hasPair 42 47 C = false) (hd : C.getLast? ≠ some 45) :
    escape buf junk fn t lineno =
      ⟨t + C.length + 2, lineno + newlines C,
        lineDirective fn lineno ++ C ++ (if C.getLast? = some 10 then [] else bytesOf "\n")⟩ := by
  have hlen : buf.length = t + (C.length + 2 + rest.length) := by
    have e := congrArg List.length h
    rw [List.length_drop] at e
    simp only [List.length_append, List.length_cons] at e
    omega
  have hexpr : (decide (t ≠ buf.length) && decide ((rd buf junk t).val = 45)) = false := by
    cases C with
    | nil =>
      rw [rd_head buf junk t 42 _ (by simpa using h)]
      have : ¬ (42 : Byte).val = 45 := by decide
      simp [this]
    | cons c C =>
      rw [rd_head buf junk t c _ (by simpa using h)]
      have : ¬ c.val = 45 := fun g => hh (by rw [List.head?_cons, byte_of_val c 45 g])
      simp [this]
  have hs := escapeScan_plain buf junk C rest (buf.length - t + 1) t lineno [] 0 h hp hd
    (by omega)
  unfold escape
  simp only [hexpr, Bool.false_eq_true, if_false, hs, List.nil_append, List.append_nil]
  by_cases g : C.getLast? = some 10
  · simp [g, (lastOut_newline C).2 g]
  · have : ¬ lastOut 0 C = 10 := fun e => g ((lastOut_newline C).1 e)
    simp [g, this]

/-- An expression block closed by the plain marker: the pointer returned, the line counter
and the output. -/
theorem escape_expr_plain (buf : List Byte) (junk : Nat → Byte) (fn C rest : List Byte)
    (t lineno : Nat)
    (h : buf.drop t = 45 :: (C ++ 42 :: 47 :: rest))
    (hp : hasPair 42 47 C = false) (hd : C.getLast? ≠ some 45) :
    escape buf junk fn t lineno =
      ⟨t + 1 + C.length + 2, lineno + newlines C,
        lineDirective fn lineno ++ bytesOf "  emit_expr(" ++ C ++ bytesOf ");\n"⟩ := by
  have hlen : buf.length = t + (C.length + 3 + rest.length) := by
    have e := congrArg List.length h
    rw [List.length_drop] at e
    simp only [List.length_append, List.length_cons] at e
    omega
  have hexpr : (decide (t ≠ buf.length) && decide ((rd buf junk t).val = 45)) = true := by
    rw [rd_head buf junk t 45 _ h]
    have h45 : (45 : Byte).val = 45 := by decide
    have hne : t ≠ buf.length := by omega
    simp [h45, hne]
  have hs := escapeScan_plain buf junk C rest (buf.length - (t + 1) + 1) (t + 1) lineno [] 0
    (drop_succ_of_drop buf t 45 _ h) hp hd (by omega)
  unfold escape
  simp only [hexpr, if_true, hs, List.nil_append, Bool.false_eq_true, if_false]

/-- A statement block closed by the trim marker: the output. -/
theorem escape_stmt_trim_out (buf : List Byte) (junk : Nat → Byte) (fn C rest : List Byte)
    (t lineno : Nat)
    (h : buf.drop t = C ++ 45 :: 42 :: 47 :: rest) (hh : (C ++ [45]).head? ≠ some 45)
    (hp : hasPair 42 47 C = false) :
    (escape buf junk fn t lineno).out =
      lineDirective fn lineno ++ C ++ (if C.getLast? = some 10 then [] else bytesOf "\n") := by
  have hlen : buf.length = t + (C.length + 3 + rest.length) := by
    have e := congrArg List.length h
    rw [List.length_drop] at e
    simp only [List.length_append, List.length_cons] at e
    omega
  have hexpr : (decide (t ≠ buf.length) && decide ((rd buf junk t).val = 45)) = false := by
    cases C with
    | nil => exact absurd rfl hh
    | cons c C =>
      rw [rd_head buf junk t c _ (by simpa using h)]
      have : ¬ c.val = 45 := fun g => hh (by
        rw [List.cons_append, List.head?_cons, byte_of_val c 45 g])
      simp [this]
  have hs := escapeScan_trim buf junk C rest (buf.length - t + 1) t lineno [] 0 h hp (by omega)
  unfold escape
  simp only [hexpr, Bool.false_eq_true, if_false, hs, List.nil_append, List.append_nil]
  by_cases g : C.getLast? = some 10
  · simp [g, (lastOut_newline C).2 g]
  · have : ¬ lastOut 0 C = 10 := fun e => g ((lastOut_newline C).1 e)
    simp [g, this]

/-- An expression block closed by the trim marker: the output. -/
theorem escape_expr_trim_out (buf : List Byte) (junk : Nat → Byte) (fn C rest : List Byte)
    (t lineno : Nat)
    (h : buf.drop t = 45 :: (C ++ 45 :: 42 :: 47 :: rest))
    (hp : hasPair 42 47 C = false) :
    (escape buf junk fn t lineno).out =
      lineDirective fn lineno ++ bytesOf "  emit_expr(" ++ C ++ bytesOf ");\n" := by
  have hlen : buf.length = t + (C.length + 4 + rest.length) := by
    have e := congrArg List.length h
    rw [List.length_drop] at e
    simp only [List.length_append, List.length_cons] at e
    omega
  have hexpr : (decide (t ≠ buf.length) && decide ((rd buf junk t).val = 45)) = true := by
    rw [rd_head buf junk t 45 _ h]
    have h45 : (45 : Byte).val = 45 := by decide
    have hne : t ≠ buf.length := by omega
    simp [h45, hne]
  have hs := escapeScan_trim buf junk C rest (buf.length - (t + 1) + 1) (t + 1) lineno [] 0
    (drop_succ_of_drop buf t 45 _ h) hp (by omega)
  unfold escape
  simp only [hexpr, if_true, hs, List.nil_append]

/-! ## The driver loop -/

/-- One iteration of the driver loop at a byte that does not open an escape block. -/
theorem processLoop_lit_step (buf : List Byte) (junk : Nat → Byte) (fn : List Byte)
    (k t lineno litstart litrun : Nat) (c : Byte) (r : List Byte)
    (h : buf.drop t = c :: r)
    (hn : ∀ d, r.head? = some d → ¬ (c.val = 47 ∧ d.val = 42)) :
    processLoop buf junk fn (k + 1) t lineno litstart litrun =
      processLoop buf junk fn k (t + 1) (lineno + newlines [c])
        (if litrun = 0 then t else litstart) (litrun + 1) := by
  have hlen := length_of_drop buf t c r h
  have hne : t ≠ buf.length := by omega
  have hlt : ¬ buf.length < t := by omega
  have hc := rd_head buf junk t c r h
  have hcond : ¬ (c.val = 47 ∧
      (if t + 1 ≠ buf.length then (rd buf junk (t + 1)).val else 0) = 42) := by
    intro ⟨a, b⟩
    cases r with
    | nil =>
      simp only [List.length_nil] at hlen
      have : t + 1 = buf.length := by omega
      simp [this] at b
    | cons d r =>
      simp only [List.length_cons] at hlen
      have g : t + 1 ≠ buf.length := by omega
      rw [if_pos g, rd_of_drop buf junk t 1 _ d h (by simp)] at b
      exact hn d rfl ⟨a, b⟩
  have hl : (if c.val = 10 then lineno + 1 else lineno) = lineno + newlines [c] := by
    simp only [newlines]
    split_ifs <;> omega
  rw [processLoop]
  simp only [if_neg hne, if_neg hlt, hc, if_neg hcond, hl, Nat.add_sub_cancel]

/-- The iteration of the driver loop at the opening marker of an escape block. -/
theorem processLoop_open (buf : List Byte) (junk : Nat → Byte) (fn : List Byte)
    (k t lineno litstart litrun : Nat) (r : List Byte)
    (h : buf.drop t = 47 :: 42 :: r) :
    processLoop buf junk fn (k + 1) t lineno litstart litrun =
      ⟨(if 0 < litrun then [Call.flush litstart litrun] else []) ++
          Call.escape (t + 2) lineno (escape buf junk fn (t + 2) lineno) ::
          (processLoop buf junk fn k (escape buf junk fn (t + 2) lineno).t
            (escape buf junk fn (t + 2) lineno).lineno litstart 0).calls,
        (processLoop buf junk fn k (escape buf junk fn (t + 2) lineno).t
            (escape buf junk fn (t + 2) lineno).lineno litstart 0).finished⟩ := by
  have hlen := length_of_drop buf t _ _ h
  simp only [List.length_cons] at hlen
  have hne : t ≠ buf.length := by omega
  have hlt : ¬ buf.length < t := by omega
  have hne1 : t + 1 ≠ buf.length := by omega
  have hc := rd_head buf junk t _ _ h
  have hn := rd_of_drop buf junk t 1 _ 42 h (by simp)
  have hcond : (47 : Byte).val = 47 ∧ (42 : Byte).val = 42 := by decide
  have hl : ¬ (47 : Byte).val = 10 := by decide
  rw [processLoop]
  simp only [if_neg hne, if_neg hlt, hc, hn, if_pos hne1, if_pos hcond, if_neg hl]

/-- The driver loop once the pointer is at the end of the buffer: the final flush. -/
theorem processLoop_end (buf : List Byte) (junk : Nat → Byte) (fn : List Byte)
    (k lineno litstart litrun : Nat) :
    processLoop buf junk fn (k + 1) buf.length lineno litstart litrun =
      ⟨if 0 < litrun then [Call.flush litstart litrun] else [], true⟩ := by
  rw [processLoop]
  simp

/-- The driver loop over a stretch `R` of literal text, followed by `tail`, in which no
opening marker begins: the bytes of `R` are added to the pending literal run. -/
theorem processLoop_literal (buf : List Byte) (junk : Nat → Byte) (fn : List Byte)
    (tail : List Byte) :
    ∀ (R : List Byte) (k t lineno litstart litrun : Nat),
      buf.drop t = R ++ tail → hasPair 47 42 (R ++ tail.take 1) = false →
      processLoop buf junk fn (R.length + k) t lineno litstart litrun =
        processLoop buf junk fn k (t + R.length) (lineno + newlines R)
          (if litrun = 0 ∧ R ≠ [] then t else litstart) (litrun + R.length) := by
  intro R
  induction R with
  | nil =>
    intro k t lineno litstart litrun _ _
    simp [newlines]
  | cons c R ih =>
    intro k t lineno litstart litrun h hp
    have hfuel : (c :: R).length + k = (R.length + k) + 1 := by
      simp only [List.length_cons]; omega
    have h0 : buf.drop t = c :: (R ++ tail) := by simpa using h
    have hn : ∀ d, (R ++ tail).head? = some d → ¬ (c.val = 47 ∧ d.val = 42) := by
      intro d hd
      cases R with
      | nil =>
        cases tail with
        | nil => simp at hd
        | cons x tail =>
          simp only [List.nil_append, List.head?_cons, Option.some.injEq] at hd
          subst hd
          exact (hasPair_cons_cons 47 42 c x [] (by simpa using hp)).1
      | cons e R =>
        simp only [List.cons_append, List.head?_cons, Option.some.injEq] at hd
        subst hd
        exact (hasPair_cons_cons 47 42 c e _ (by simpa using hp)).1
    rw [hfuel, processLoop_lit_step buf junk fn _ t lineno litstart litrun c _ h0 hn,
      ih k (t + 1) _ _ _ (drop_succ_of_drop buf t c _ h0)
        (hasPair_tail 47 42 c _ (by simpa using hp))]
    have hl : lineno + newlines [c] + newlines R = lineno + newlines (c :: R) := by
      simp only [newlines]; omega
    have ht : t + 1 + R.length = t + (c :: R).length := by
      simp only [List.length_cons]; omega
    have hr : litrun + 1 + R.length = litrun + (c :: R).length := by
      simp only [List.length_cons]; omega
    rw [hl, ht, hr]
    simp

/-! ## The driver on inputs of a given shape -/

/-- A pair absent from a list stays absent when a byte other than its second is added at
the end. -/
theorem hasPair_append_single (a b : Nat) (y : Byte) (hy : y.val ≠ b) :
    ∀ l : List Byte, hasPair a b l = false → hasPair a b (l ++ [y]) = false := by
  intro l
  induction l with
  | nil => intro _; rfl
  | cons x l ih =>
    intro h
    cases l with
    | nil => simp [hasPair, hy]
    | cons z l =>
      have p := hasPair_cons_cons a b x z l h
      have q := ih p.2
      simp only [List.cons_append, hasPair, Bool.or_eq_false_iff, Bool.and_eq_false_iff,
        decide_eq_false_iff_not]
      refine ⟨?_, by simpa using q⟩
      by_cases g : x.val = a
      · exact Or.inr (fun g2 => p.1 ⟨g, g2⟩)
      · exact Or.inl g

/-- The calls `process` makes on a buffer without opening marker: a single flush of the
whole buffer, or none when the buffer is empty. -/
theorem process_literal_only (buf : List Byte) (junk : Nat → Byte) (fn : List Byte)
    (hno : hasPair 47 42 buf = false) :
    process buf junk fn =
      ⟨if 0 < buf.length then [Call.flush 0 buf.length] else [], true⟩ := by
  unfold process
  rw [processLoop_literal buf junk fn [] buf 1 0 1 0 0 (by simp) (by simpa using hno)]
  simp only [Nat.zero_add]
  rw [processLoop_end buf junk fn 0]
  simp

/-- The pointer and the line counter `escape` returns for a block whose interior `I`
(an expression marker included) is ended by the plain closing marker. -/
theorem escape_plain_returns (buf : List Byte) (junk : Nat → Byte) (fn I rest : List Byte)
    (t lineno : Nat)
    (h : buf.drop t = I ++ 42 :: 47 :: rest)
    (hp : hasPair 42 47 I = false) (hd : I.getLast? ≠ some 45) :
    (escape buf junk fn t lineno).t = t + I.length + 2 ∧
    (escape buf junk fn t lineno).lineno = lineno + newlines I := by
  by_cases hh : I.head? = some 45
  · cases I with
    | nil => simp at hh
    | cons c C =>
      simp only [List.head?_cons, Option.some.injEq] at hh
      subst hh
      have hC : C.getLast? ≠ some 45 := by
        cases C with
        | nil => exact absurd rfl hd
        | cons d C => rwa [List.getLast?_cons_cons] at hd
      rw [escape_expr_plain buf junk fn C rest t lineno (by simpa using h)
        (hasPair_tail 42 47 45 C hp) hC]
      have h45 : ¬ (45 : Byte).val = 10 := by decide
      simp only [List.length_cons, newlines, if_neg h45]
      omega
  · rw [escape_stmt_plain buf junk fn I rest t lineno h hh hp hd]
    exact ⟨rfl, rfl⟩

/-- Where the driver loop resumes with no literal run pending, at a stretch `R` of literal
text that reaches the end of the buffer or the next opening marker, its next call is the
flush of exactly `R`. -/
theorem processLoop_next_flush (buf : List Byte) (junk : Nat → Byte) (fn R tail : List Byte)
    (fuel p lineno litstart : Nat)
    (h : buf.drop p = R ++ tail) (hR : R ≠ []) (hno : hasPair 47 42 R = false)
    (htail : tail = [] ∨ ∃ tl, tail = 47 :: 42 :: tl) (hf : R.length < fuel) :
    (processLoop buf junk fn fuel p lineno litstart 0).calls.head? =
      some (Call.flush p R.length) ∧
    memSpan buf junk p R.length = R := by
  refine ⟨?_, memSpan_of_drop buf junk R p tail h⟩
  obtain ⟨k, rfl⟩ : ∃ k, fuel = R.length + (k + 1) := ⟨fuel - R.length - 1, by omega⟩
  have hpos : 0 < R.length := List.length_pos.2 hR
  have hnext := drop_add_of_drop buf p R tail h
  rcases htail with rfl | ⟨tl, rfl⟩
  · rw [processLoop_literal buf junk fn [] R (k + 1) p lineno litstart 0 h (by simpa using hno)]
    have hlen : p + R.length = buf.length := by
      have e := congrArg List.length h
      rw [List.length_drop] at e
      simp only [List.append_nil] at e
      omega
    rw [hlen, processLoop_end]
    simp [hpos, hR]
  · have hno2 : hasPair 47 42 (R ++ List.take 1 (47 :: 42 :: tl)) = false :=
      hasPair_append_single 47 42 47 (by decide) R hno
    rw [processLoop_literal buf junk fn _ R (k + 1) p lineno litstart 0 h hno2,
      processLoop_open buf junk fn k _ _ _ _ tl hnext]
    simp [hpos, hR]

/-- Where the driver loop resumes with no literal run pending and what is left of the
buffer is literal text `R`, it makes one more call, the flush of `R`, and ends. -/
theorem processLoop_last_flush (buf : List Byte) (junk : Nat → Byte) (fn R : List Byte)
    (fuel p lineno litstart : Nat)
    (h : buf.drop p = R) (hR : R ≠ []) (hno : hasPair 47 42 R = false)
    (hf : R.length < fuel) :
    processLoop buf junk fn fuel p lineno litstart 0 = ⟨[Call.flush p R.length], true⟩ := by
  obtain ⟨k, rfl⟩ : ∃ k, fuel = R.length + (k + 1) := ⟨fuel - R.length - 1, by omega⟩
  have hpos : 0 < R.length := List.length_pos.2 hR
  rw [processLoop_literal buf junk fn [] R (k + 1) p lineno litstart 0 (by simpa using h)
    (by simpa using hno)]
  have hlen : p + R.length = buf.length := by
    have e := congrArg List.length h
    rw [List.length_drop] at e
    omega
  rw [hlen, processLoop_end]
  simp [hpos, hR]

/-- The calls `process` makes on literal text `L`, an expression block with code `C` closed
by the plain marker, and literal text `R`. -/
theorem process_lit_expr_lit (buf : List Byte) (junk : Nat → Byte) (fn L C R : List Byte)
    (hbuf : buf = L ++ 47 :: 42 :: 45 :: (C ++ 42 :: 47 :: R))
    (hL : L ≠ []) (hR : R ≠ [])
    (hLno : hasPair 47 42 L = false) (hRno : hasPair 47 42 R = false)
    (hC : hasPair 42 47 C = false) (hCd : C.getLast? ≠ some 45) :
    process buf junk fn =
      ⟨[Call.flush 0 L.length,
        Call.escape (L.length + 2) (1 + newlines L)
          ⟨L.length + 2 + 1 + C.length + 2, 1 + newlines L + newlines C,
            lineDirective fn (1 + newlines L) ++ bytesOf "  emit_expr(" ++ C ++ bytesOf ");\n"⟩,
        Call.flush (L.length + 2 + 1 + C.length + 2) R.length], true⟩ := by
  have hlen : buf.length + 1 = L.length + ((C.length + R.length + 5) + 1) := by
    rw [hbuf]
    simp only [List.length_append, List.length_cons]
    omega
  have hposL : 0 < L.length := List.length_pos.2 hL
  have d0 : buf.drop 0 = L ++ 47 :: 42 :: 45 :: (C ++ 42 :: 47 :: R) := by rw [hbuf]; rfl
  have d1 : buf.drop L.length = 47 :: 42 :: 45 :: (C ++ 42 :: 47 :: R) := by
    simpa using drop_add_of_drop buf 0 L _ d0
  have d2 : buf.drop (L.length + 2) = 45 :: (C ++ 42 :: 47 :: R) := by
    have e := drop_add_of_drop buf L.length [47, 42] _ (by rw [d1]; rfl)
    simpa using e
  have d3 : buf.drop (L.length + 2 + 1 + C.length + 2) = R := by
    have e := drop_add_of_drop buf (L.length + 2) (45 :: (C ++ [42, 47])) R (by rw [d2]; simp)
    simp only [List.length_cons, List.length_append, List.length_nil] at e
    rw [← e]
    congr 1
    omega
  have he := escape_expr_plain buf junk fn C R (L.length + 2) (1 + newlines L) d2 hC hCd
  have hno2 : hasPair 47 42 (L ++ List.take 1 (47 :: 42 :: 45 :: (C ++ 42 :: 47 :: R))) = false :=
    hasPair_append_single 47 42 47 (by decide) L hLno
  unfold process
  rw [hlen, processLoop_literal buf junk fn _ L _ 0 1 0 0 d0 hno2]
  simp only [Nat.zero_add, true_and, if_pos hL]
  rw [processLoop_open buf junk fn _ L.length _ 0 L.length _ d1, he]
  simp only [if_pos hposL]
  rw [processLoop_last_flush buf junk fn R _ _ _ 0 d3 hR hRno (by omega)]
  rfl

/-! ## The parts of the buffer a run handles -/

/-- The copy loop never moves the pointer backwards. -/
theorem escapeScan_t_ge (buf : List Byte) (junk : Nat → Byte) :
    ∀ (fuel t lineno : Nat) (copied : List Byte) (last : Nat),
      t ≤ (escapeScan buf junk fuel t lineno copied last).t := by
  intro fuel
  induction fuel with
  | zero => intro t lineno copied last; exact Nat.le_refl t
  | succ fuel ih =>
    intro t lineno copied last
    simp only [escapeScan]
    split_ifs <;>
      first
      | exact Nat.le_refl t
      | exact Nat.le_add_right t 2
      | exact Nat.le_add_right t 3
      | exact Nat.le_trans (Nat.le_succ t) (ih _ _ _ _)

/-- The trailing-whitespace loop never moves the pointer backwards. -/
theorem eatWs_t_ge (buf : List Byte) (junk : Nat → Byte) :
    ∀ (fuel t lineno : Nat), t ≤ (eatWs buf junk fuel t lineno).1 := by
  intro fuel
  induction fuel with
  | zero => intro t lineno; exact Nat.le_refl t
  | succ fuel ih =>
    intro t lineno
    simp only [eatWs]
    split_ifs <;>
      first
      | exact Nat.le_refl t
      | exact Nat.le_succ t
      | exact Nat.le_trans (Nat.le_succ t) (ih _ _)

/-- `escape` never returns a pointer before the one it was given. -/
theorem escape_t_ge (buf : List Byte) (junk : Nat → Byte) (fn : List Byte) (t lineno : Nat) :
    t ≤ (escape buf junk fn t lineno).t := by
  unfold escape
  simp only []
  have h0 : t ≤ (if (decide (t ≠ buf.length) && decide ((rd buf junk t).val = 45)) = true
      then t + 1 else t) := by
    split_ifs
    · exact Nat.le_succ t
    · exact Nat.le_refl t
  refine Nat.le_trans h0 ?_
  split_ifs <;>
    first
    | exact escapeScan_t_ge buf junk _ _ _ _ _
    | exact Nat.le_trans (escapeScan_t_ge buf junk _ _ _ _ _) (eatWs_t_ge buf junk _ _ _)

/-- One iteration of the driver loop, with the updates of the local variables spelled
out. -/
theorem processLoop_succ (buf : List Byte) (junk : Nat → Byte) (fn : List Byte)
    (fuel t lineno litstart litrun : Nat) :
    processLoop buf junk fn (fuel + 1) t lineno litstart litrun =
      if t = buf.length then
        ⟨if 0 < litrun then [Call.flush litstart litrun] else [], true⟩
      else if buf.length < t then ⟨[], false⟩
      else if (rd buf junk t).val = 47 ∧
          (if t + 1 ≠ buf.length then (rd buf junk (t + 1)).val else 0) = 42 then
        ⟨(if 0 < litrun then [Call.flush litstart litrun] else []) ++
            Call.escape (t + 2) (lineno + newlines [rd buf junk t])
              (escape buf junk fn (t + 2) (lineno + newlines [rd buf junk t])) ::
            (processLoop buf junk fn fuel
              (escape buf junk fn (t + 2) (lineno + newlines [rd buf junk t])).t
              (escape buf junk fn (t + 2) (lineno + newlines [rd buf junk t])).lineno
              litstart 0).calls,
          (processLoop buf junk fn fuel
              (escape buf junk fn (t + 2) (lineno + newlines [rd buf junk t])).t
              (escape buf junk fn (t + 2) (lineno + newlines [rd buf junk t])).lineno
              litstart 0).finished⟩
      else
        processLoop buf junk fn fuel (t + 1) (lineno + newlines [rd buf junk t])
          (if litrun = 0 then t else litstart) (litrun + 1) := by
  have hl : (if (rd buf junk t).val = 10 then lineno + 1 else lineno) =
      lineno + newlines [rd buf junk t] := by
    simp only [newlines]
    split_ifs <;> omega
  rw [processLoop]
  simp only [hl, Nat.add_sub_cancel]

/-- In a run whose driver loop ends at `te`, the parts handled by the calls follow each
other without gap or overlap from the start of the pending literal run (or from the
pointer, when none is pending) to the end of the buffer. -/
theorem processLoop_tiles (buf : List Byte) (junk : Nat → Byte) (fn : List Byte) :
    ∀ (fuel t lineno litstart litrun : Nat),
      (litrun = 0 ∨ litstart + litrun = t) →
      (processLoop buf junk fn fuel t lineno litstart litrun).finished = true →
      Tiles (if litrun = 0 then t else litstart)
        (processLoop buf junk fn fuel t lineno litstart litrun).calls buf.length := by
  intro fuel
  induction fuel with
  | zero =>
    intro t lineno litstart litrun _ hfin
    simp [processLoop] at hfin
  | succ fuel ih =>
    intro t lineno litstart litrun hinv hfin
    rw [processLoop_succ] at hfin ⊢
    by_cases h1 : t = buf.length
    · rw [if_pos h1]
      by_cases h0 : litrun = 0
      · simp [h0, Tiles, h1]
      · have hpos : 0 < litrun := Nat.pos_of_ne_zero h0
        have hsum : litstart + litrun = buf.length := by omega
        simp only [if_pos hpos, if_neg h0, Tiles, Call.start, Call.stop]
        exact ⟨trivial, Nat.le_add_right _ _, hsum⟩
    · rw [if_neg h1] at hfin ⊢
      by_cases h2 : buf.length < t
      · rw [if_pos h2] at hfin
        exact absurd hfin (by simp)
      · rw [if_neg h2] at hfin ⊢
        by_cases h3 : (rd buf junk t).val = 47 ∧
            (if t + 1 ≠ buf.length then (rd buf junk (t + 1)).val else 0) = 42
        · rw [if_pos h3] at hfin ⊢
          have hr := ih _ _ litstart 0 (Or.inl rfl) hfin
          have hge := escape_t_ge buf junk fn (t + 2) (lineno + newlines [rd buf junk t])
          rw [if_pos rfl] at hr
          by_cases h0 : litrun = 0
          · have hnp : ¬ 0 < litrun := by omega
            simp only [if_neg hnp, if_pos h0, List.nil_append, Tiles, Call.start, Call.stop]
            exact ⟨by omega, by omega, hr⟩
          · have hpos : 0 < litrun := Nat.pos_of_ne_zero h0
            have hsum : litstart + litrun = t := by omega
            simp only [if_pos hpos, if_neg h0, List.singleton_append, Tiles, Call.start,
              Call.stop]
            exact ⟨trivial, Nat.le_add_right _ _, by omega, by omega, hr⟩
        · rw [if_neg h3] at hfin ⊢
          have hr := ih (t + 1) _ (if litrun = 0 then t else litstart) (litrun + 1)
            (Or.inr (by split_ifs <;> omega)) hfin
          rw [if_neg (Nat.succ_ne_zero litrun)] at hr
          exact hr

/-- The bytes `memSpan` reads inside the buffer. -/
theorem memSpan_inside (buf : List Byte) (junk : Nat → Byte) (a n : Nat)
    (h : a + n ≤ buf.length) : memSpan buf junk a n = (buf.drop a).take n := by
  have hl : ((buf.drop a).take n).length = n := by
    rw [List.length_take, List.length_drop]
    omega
  have e := memSpan_of_drop buf junk ((buf.drop a).take n) a ((buf.drop a).drop n)
    (List.take_append_drop n (buf.drop a)).symm
  rw [hl] at e
  exact e

/-- Parts that follow each other without gap or overlap from `a` to `b`, inside the buffer,
are together the bytes of the buffer from `a` to `b`. -/
theorem handled_of_tiles (buf : List Byte) (junk : Nat → Byte) :
    ∀ (cs : List Call) (a b : Nat), Tiles a cs b → b ≤ buf.length →
      a ≤ b ∧ handled buf junk cs = (buf.drop a).take (b - a) := by
  intro cs
  induction cs with
  | nil =>
    intro a b h _
    simp only [Tiles] at h
    subst h
    simp [handled]
  | cons c cs ih =>
    intro a b h hb
    simp only [Tiles] at h
    obtain ⟨h1, h2, h3⟩ := h
    obtain ⟨h4, h5⟩ := ih c.stop b h3 hb
    refine ⟨by omega, ?_⟩
    have hsplit : b - a = (c.stop - a) + (b - c.stop) := by omega
    have hdrop : List.drop (c.stop - a) (List.drop a buf) = List.drop c.stop buf := by
      rw [List.drop_drop]
      congr 1
      omega
    rw [handled, h5, h1, memSpan_inside buf junk a (c.stop - a) (by omega), hsplit,
      List.take_add, hdrop]

/-- In a run of `process` whose driver loop ends at `te`, the parts handled by the calls
follow each other without gap or overlap from the start to the end of the buffer, and
their bytes, concatenated in order, are the buffer. -/
theorem process_partition (buf : List Byte) (junk : Nat → Byte) (fn : List Byte)
    (hfin : (process buf junk fn).finished = true) :
    Tiles 0 (process buf junk fn).calls buf.length ∧
    handled buf junk (process buf junk fn).calls = buf := by
  have ht := processLoop_tiles buf junk fn (buf.length + 1) 0 1 0 0 (Or.inl rfl) hfin
  rw [if_pos rfl] at ht
  refine ⟨ht, ?_⟩
  have e := (handled_of_tiles buf junk _ 0 buf.length ht (Nat.le_refl _)).2
  simpa [process] using e

/-! ## Runs that stay inside the buffer -/

/-- A read at the end of the buffer gives the first byte that lies behind it. -/
theorem rd_at_end (buf : List Byte) (junk : Nat → Byte) : rd buf junk buf.length = junk 0 := by
  simp [rd]

/-- When the byte behind the buffer is neither `/` nor `*`, the copy loop leaves the
pointer inside the buffer or at its end. -/
theorem escapeScan_t_le (buf : List Byte) (junk : Nat → Byte)
    (hj : (junk 0).val ≠ 47 ∧ (junk 0).val ≠ 42) :
    ∀ (fuel t lineno : Nat) (copied : List Byte) (last : Nat), t ≤ buf.length →
      (escapeScan buf junk fuel t lineno copied last).t ≤ buf.length := by
  intro fuel
  induction fuel with
  | zero => intro t lineno copied last h; exact h
  | succ fuel ih =>
    intro t lineno copied last h
    rw [escapeScan]
    by_cases h1 : t = buf.length
    · rw [if_pos h1]; exact h
    · rw [if_neg h1]
      have hlt : t + 1 ≤ buf.length := by omega
      have hn : t + 1 = buf.length → (rd buf junk (t + 1)).val = (junk 0).val := by
        intro g; rw [g, rd_at_end]
      simp only []
      by_cases h2 : (rd buf junk t).val = 42 ∧ (rd buf junk (t + 1)).val = 47
      · rw [if_pos h2]
        have : t + 1 ≠ buf.length := fun g => hj.1 ((hn g).symm.trans h2.2)
        show t + 2 ≤ buf.length
        omega
      · rw [if_neg h2]
        by_cases h3 : (rd buf junk t).val = 45 ∧ (rd buf junk (t + 1)).val = 42 ∧
            (if t + 2 = buf.length then 0 else (rd buf junk (t + 2)).val) = 47
        · rw [if_pos h3]
          have g1 : t + 1 ≠ buf.length := fun g => hj.2 ((hn g).symm.trans h3.2.1)
          have g2 : t + 2 ≠ buf.length := by
            intro g
            have := h3.2.2
            rw [if_pos g] at this
            exact absurd this (by decide)
          show t + 3 ≤ buf.length
          omega
        · rw [if_neg h3]
          exact ih _ _ _ _ hlt

/-- The trailing-whitespace loop leaves the pointer inside the buffer or at its end. -/
theorem eatWs_t_le (buf : List Byte) (junk : Nat → Byte) :
    ∀ (fuel t lineno : Nat), t ≤ buf.length → (eatWs buf junk fuel t lineno).1 ≤ buf.length := by
  intro fuel
  induction fuel with
  | zero => intro t lineno h; exact h
  | succ fuel ih =>
    intro t lineno h
    rw [eatWs]
    by_cases h1 : t ≠ buf.length ∧ isspace (rd buf junk t) = true
    · rw [if_pos h1]
      have hlt : t + 1 ≤ buf.length := by have := h1.1; omega
      by_cases h2 : (rd buf junk (t + 1)).val = 10
      · rw [if_pos h2]; exact hlt
      · rw [if_neg h2]; exact ih _ _ hlt
    · rw [if_neg h1]; exact h

/-- When the byte behind the buffer is neither `/` nor `*`, `escape` returns a pointer
inside the buffer or at its end. -/
theorem escape_t_le (buf : List Byte) (junk : Nat → Byte) (fn : List Byte) (t lineno : Nat)
    (hj : (junk 0).val ≠ 47 ∧ (junk 0).val ≠ 42) (h : t ≤ buf.length) :
    (escape buf junk fn t lineno).t ≤ buf.length := by
  unfold escape
  simp only []
  have h0 : (if (decide (t ≠ buf.length) && decide ((rd buf junk t).val = 45)) = true
      then t + 1 else t) ≤ buf.length := by
    by_cases g : (decide (t ≠ buf.length) && decide ((rd buf junk t).val = 45)) = true
    · rw [if_pos g]
      simp only [Bool.and_eq_true, decide_eq_true_eq] at g
      have := g.1
      omega
    · rw [if_neg g]; exact h
  have hs := escapeScan_t_le buf junk hj
    (buf.length - (if (decide (t ≠ buf.length) && decide ((rd buf junk t).val = 45)) = true
      then t + 1 else t) + 1) _ lineno [] 0 h0
  split_ifs at hs ⊢ <;>
    first
    | exact hs
    | exact eatWs_t_le buf junk _ _ _ hs

/-- When the byte behind the buffer is neither `/` nor `*`, the driver loop ends at `te`,
given one unit of fuel per byte left and one more. -/
theorem processLoop_finishes (buf : List Byte) (junk : Nat → Byte) (fn : List Byte)
    (hj : (junk 0).val ≠ 47 ∧ (junk 0).val ≠ 42) :
    ∀ (fuel t lineno litstart litrun : Nat), t ≤ buf.length → buf.length - t < fuel →
      (processLoop buf junk fn fuel t lineno litstart litrun).finished = true := by
  intro fuel
  induction fuel with
  | zero => intro t lineno litstart litrun _ hf; omega
  | succ fuel ih =>
    intro t lineno litstart litrun h hf
    rw [processLoop_succ]
    by_cases h1 : t = buf.length
    · rw [if_pos h1]
    · rw [if_neg h1, if_neg (by omega)]
      by_cases h3 : (rd buf junk t).val = 47 ∧
          (if t + 1 ≠ buf.length then (rd buf junk (t + 1)).val else 0) = 42
      · rw [if_pos h3]
        have g : t + 1 ≠ buf.length := by
          intro g
          have := h3.2
          rw [if_neg (by simpa using g)] at this
          omega
        have hge := escape_t_ge buf junk fn (t + 2) (lineno + newlines [rd buf junk t])
        have hle := escape_t_le buf junk fn (t + 2) (lineno + newlines [rd buf junk t]) hj
          (by omega)
        exact ih _ _ _ _ hle (by omega)
      · rw [if_neg h3]
        exact ih _ _ _ _ (by omega) (by omega)

/-- When the byte behind the buffer is neither `/` nor `*`, `process` ends at `te`, and the
parts handled by its calls make up the buffer without gap or overlap. -/
theorem process_partition_inside (buf : List Byte) (junk : Nat → Byte) (fn : List Byte)
    (hj : (junk 0).val ≠ 47 ∧ (junk 0).val ≠ 42) :
    (process buf junk fn).finished = true ∧
    Tiles 0 (process buf junk fn).calls buf.length ∧
    handled buf junk (process buf junk fn).calls = buf := by
  have hfin : (process buf junk fn).finished = true :=
    processLoop_finishes buf junk fn hj (buf.length + 1) 0 1 0 0 (Nat.zero_le _) (by omega)
  exact ⟨hfin, process_partition buf junk fn hfin⟩

/-! ## The claims -/

/-- C1 (code defect). Where plain `char` is signed, the byte `0x80` of a literal run is
converted to the `int` value `-128` and `%02x` prints it as `ffffff80`: `flush_litrun`
writes the ten characters `\xffffff80` for it, where the specified mapping has the four
characters `\x80`. -/
theorem C1_signed_char_high_byte :
    escByte true 128 = bytesOf "\\xffffff80" ∧
    escapeSpec 128 = bytesOf "\\x80" ∧
    flush_litrun true [128] = bytesOf "  emit(\"\\xffffff80\", 1);\n" := by
  decide

/-- C2 (counterexample). On the empty buffer, which contains no `/*`, `process` writes
nothing at all, hence no `emit` statement. -/
theorem C2_empty_input_writes_nothing :
    hasPair 47 42 [] = false ∧
    output false [] (fun _ => 0) [] = [] ∧
    ¬ ∃ e n, output false [] (fun _ => 0) [] = emitStmt e n := by
  refine ⟨rfl, rfl, ?_⟩
  rintro ⟨e, n, h⟩
  have h2 : output false [] (fun _ => 0) [] = [] := rfl
  rw [h2] at h
  exact absurd (congrArg List.length h) (by simp [emitStmt, bytesOf])

/-- C2 (amended). For every non-empty buffer without `/*`, none of whose bytes converts to a
negative `int`, `process` makes exactly one call, the flush of the whole buffer; what it
writes is one `emit` statement whose length argument is the length of the buffer and
whose quoted text, read back through the inverse of the escaper mapping, is the buffer. -/
theorem C2_literal_round_trip (sc : Bool) (buf : List Byte) (junk : Nat → Byte)
    (fn : List Byte) (hne : buf ≠ []) (hno : hasPair 47 42 buf = false)
    (hs : sc = false ∨ ∀ b ∈ buf, b.val < 128) :
    process buf junk fn = ⟨[Call.flush 0 buf.length], true⟩ ∧
    output sc buf junk fn = emitStmt (escRun sc buf) buf.length ∧
    unescape (escRun sc buf) = some buf := by
  have hpos : 0 < buf.length := List.length_pos.2 hne
  have hp : process buf junk fn = ⟨[Call.flush 0 buf.length], true⟩ := by
    rw [process_literal_only buf junk fn hno, if_pos hpos]
  refine ⟨hp, ?_, unescape_escRun sc buf hs⟩
  unfold output
  rw [hp]
  simp only [writtenBy, Call.written, List.append_nil]
  rw [memSpan_of_drop buf junk buf 0 [] (by simp)]
  rfl

/-- C2 (witness). The amended claim at the three bytes `0xC8`, newline, `A`, with plain
`char` unsigned. -/
theorem C2_literal_round_trip_witness :
    ([200, 10, 65] : List Byte) ≠ [] ∧ hasPair 47 42 [200, 10, 65] = false ∧
    process [200, 10, 65] (fun _ => 0) [] = ⟨[Call.flush 0 3], true⟩ ∧
    output false [200, 10, 65] (fun _ => 0) [] = emitStmt (bytesOf "\\xc8\\nA") 3 ∧
    unescape (bytesOf "\\xc8\\nA") = some [200, 10, 65] :=
  ⟨by decide, by decide,
    C2_literal_round_trip false [200, 10, 65] (fun _ => 0) [] (by decide) (by decide)
      (Or.inl rfl)⟩

/-- C3 (code defect). For the two bytes `0x01`, `a`, `flush_litrun` writes the quoted text
`\x01a`; read as the body of a C string literal, where a hexadecimal escape takes the
longest run of hexadecimal digits, this is the single byte `0x1A`, not the two bytes of
the run, although the length argument is 2. -/
theorem C3_hex_escape_takes_following_digit :
    flush_litrun false [1, 97] = emitStmt (bytesOf "\\x01a") 2 ∧
    cStringBytes (bytesOf "\\x01a") = some [26] ∧
    cStringBytes (escRun false [195, 169, 98]) = none := by
  decide

/-- C4 (code defect). On the four bytes `/*a*`, when the byte that follows the buffer in
memory is `/`, the lookahead `t[1]` of the copy loop reads that byte at the last `*`, the
pair is taken for a closing marker and `escape` returns the pointer `5`, one beyond `te`:
the parts handled are the five bytes `/*a*/`, not the four bytes of the buffer, and the
driver loop is not left at `te`. -/
theorem C4_escape_runs_past_end :
    process (bytesOf "/*a*") (fun _ => 47) (bytesOf "t") =
      ⟨[Call.escape 2 1 ⟨5, 1, bytesOf "#line 1 \"t\"\na\n"⟩], false⟩ ∧
    handled (bytesOf "/*a*") (fun _ => 47)
      (process (bytesOf "/*a*") (fun _ => 47) (bytesOf "t")).calls = bytesOf "/*a*/" ∧
    ¬ Tiles 0 (process (bytesOf "/*a*") (fun _ => 47) (bytesOf "t")).calls
      (bytesOf "/*a*").length := by
  have h : process (bytesOf "/*a*") (fun _ => 47) (bytesOf "t") =
      ⟨[Call.escape 2 1 ⟨5, 1, bytesOf "#line 1 \"t\"\na\n"⟩], false⟩ := by decide
  refine ⟨h, by decide, ?_⟩
  rw [h]
  simp [Tiles, Call.start, Call.stop, bytesOf]

/-- C5 (code defect). In `/* a -*/` newline `/* b */` the second block opens at index 9,
after one newline, so its directive should carry line 2; the trim loop steps over that
newline without counting it and the directive carries line 1. With a space before the
newline the loop counts the newline without stepping over it, the driver counts it
again, and the directive carries line 3. -/
theorem C5_line_number_after_trim :
    directives (process (bytesOf "/* a -*/\n/* b */") (fun _ => 0) (bytesOf "t")).calls =
      [(2, 1), (11, 1)] ∧
    1 + newlines ((bytesOf "/* a -*/\n/* b */").take 9) = 2 ∧
    directives (process (bytesOf "/* a -*/ \n/* b */") (fun _ => 0) (bytesOf "t")).calls =
      [(2, 1), (12, 3)] ∧
    1 + newlines ((bytesOf "/* a -*/ \n/* b */").take 10) = 2 := by
  decide

/-- C6 (code defect). After the trim marker of `/*- x -*/` the newline is at index 9. The
trim loop tests for the newline after moving the pointer, so here it steps over the
newline and the two spaces of the next line and returns the pointer `12` instead of `10`,
leaving the line counter at 1; the literal run that follows is `literal` and a newline, 8
bytes, without the two leading spaces. When a space stands before the newline, as in
`/* x -*/` space newline `y`, the loop stops on the newline (pointer `9`, not `10`) and
the newline is emitted as literal text. -/
theorem C6_trim_loop_tests_after_moving :
    escape (bytesOf "/*- x -*/\n  literal\n") (fun _ => 0) (bytesOf "t") 2 1 =
      ⟨12, 1, bytesOf "#line 1 \"t\"\n  emit_expr( x );\n"⟩ ∧
    output false (bytesOf "/*- x -*/\n  literal\n") (fun _ => 0) (bytesOf "t") =
      bytesOf "#line 1 \"t\"\n  emit_expr( x );\n  emit(\"literal\\n\", 8);\n" ∧
    escape (bytesOf "/* x -*/ \ny") (fun _ => 0) (bytesOf "t") 2 1 =
      ⟨9, 2, bytesOf "#line 1 \"t\"\n x \n"⟩ ∧
    output false (bytesOf "/* x -*/ \ny") (fun _ => 0) (bytesOf "t") =
      bytesOf "#line 1 \"t\"\n x \n  emit(\"\\ny\", 2);\n" := by
  decide

/-- C7. When the interior `I` of an escape block contains no `*/`, does not end in `-` and
is followed by `*/`, `escape` returns the pointer right after the `/` of that marker, so
what is left of the buffer there is everything that followed the marker; and when the
driver loop resumes there, the literal text `R` that follows, up to the end of the buffer
or the next opening marker, is flushed whole, its first byte being the byte right after
the marker. -/
theorem C7_plain_close (buf : List Byte) (junk : Nat → Byte) (fn I rest : List Byte)
    (t lineno : Nat)
    (h : buf.drop t = I ++ bytesOf "*/" ++ rest)
    (hp : hasPair 42 47 I = false) (hd : I.getLast? ≠ some 45) :
    (escape buf junk fn t lineno).t = t + I.length + 2 ∧
    buf.drop (escape buf junk fn t lineno).t = rest ∧
    ∀ (R tail : List Byte) (fuel ln ls : Nat),
      rest = R ++ tail → R ≠ [] → hasPair 47 42 R = false →
      (tail = [] ∨ ∃ tl, tail = bytesOf "/*" ++ tl) → R.length < fuel →
      (processLoop buf junk fn fuel (escape buf junk fn t lineno).t ln ls 0).calls.head? =
        some (Call.flush (t + I.length + 2) R.length) ∧
      memSpan buf junk (t + I.length + 2) R.length = R := by
  have hm : bytesOf "*/" = [42, 47] := by decide
  have ho : bytesOf "/*" = [47, 42] := by decide
  have h0 : buf.drop t = I ++ 42 :: 47 :: rest := by rw [h, hm]; simp
  have ht := (escape_plain_returns buf junk fn I rest t lineno h0 hp hd).1
  have hrest : buf.drop (t + I.length + 2) = rest := by
    have e := drop_add_of_drop buf t (I ++ [42, 47]) rest (by rw [h0]; simp)
    simpa [Nat.add_assoc] using e
  refine ⟨ht, by rw [ht]; exact hrest, ?_⟩
  intro R tail fuel ln ls hR hne hno htail hf
  rw [ht]
  refine processLoop_next_flush buf junk fn R tail fuel _ ln ls (by rw [hrest, hR]) hne hno ?_ hf
  rcases htail with g | ⟨tl, g⟩
  · exact Or.inl g
  · exact Or.inr ⟨tl, by rw [g, ho]; rfl⟩

/-- C7 (witness). For `/* x */` followed by a newline, two spaces, `literal` and a newline,
`escape` returns the pointer `7`, right after the marker, and the block is followed by
one `emit` statement for these 11 bytes. -/
theorem C7_plain_close_witness :
    (bytesOf "/* x */\n  literal\n").drop 2 =
      bytesOf " x " ++ bytesOf "*/" ++ bytesOf "\n  literal\n" ∧
    hasPair 42 47 (bytesOf " x ") = false ∧ (bytesOf " x ").getLast? ≠ some 45 ∧
    (escape (bytesOf "/* x */\n  literal\n") (fun _ => 0) (bytesOf "t") 2 1).t = 7 ∧
    output false (bytesOf "/* x */\n  literal\n") (fun _ => 0) (bytesOf "t") =
      bytesOf "#line 1 \"t\"\n x \n  emit(\"\\n  literal\\n\", 11);\n" :=
  ⟨by decide, by decide, by decide,
    (C7_plain_close (bytesOf "/* x */\n  literal\n") (fun _ => 0) (bytesOf "t")
      (bytesOf " x ") (bytesOf "\n  literal\n") 2 1 (by decide) (by decide) (by decide)).1,
    by decide⟩

/-- C8. For a block whose interior does not start with `-` and whose code `C` is ended by
the closing marker `M`, plain or trim, `escape` writes the `#line` directive with the
line counter on entry and the file name, then `C` as it is, then one newline exactly
when `C` is empty or does not end in a newline; nothing else. -/
theorem C8_statement_block_output (buf : List Byte) (junk : Nat → Byte)
    (fn C M rest : List Byte) (t lineno : Nat)
    (hM : M = bytesOf "*/" ∨ M = bytesOf "-*/")
    (h : buf.drop t = C ++ M ++ rest)
    (hstart : (C ++ M).head? ≠ some 45)
    (hp : hasPair 42 47 C = false)
    (hd : M = bytesOf "*/" → C.getLast? ≠ some 45) :
    (escape buf junk fn t lineno).out =
      bytesOf "#line " ++ fmtd lineno ++ bytesOf " \"" ++ fn ++ bytesOf "\"\n" ++ C ++
        (if C = [] ∨ C.getLast? ≠ some 10 then bytesOf "\n" else []) := by
  have hm : bytesOf "*/" = [42, 47] := by decide
  have hmt : bytesOf "-*/" = [45, 42, 47] := by decide
  have hnl : (if C = [] ∨ C.getLast? ≠ some 10 then bytesOf "\n" else []) =
      (if C.getLast? = some 10 then [] else bytesOf "\n") := by
    by_cases g : C.getLast? = some 10
    · have : C ≠ [] := by rintro rfl; simp at g
      simp [g, this]
    · simp [g]
  rw [hnl]
  rcases hM with rfl | rfl
  · have hh : C.head? ≠ some 45 := by
      cases C with
      | nil => simp
      | cons c C => simpa using hstart
    rw [escape_stmt_plain buf junk fn C rest t lineno (by rw [h, hm]; simp) hh hp (hd rfl)]
    rfl
  · have hh : (C ++ [45]).head? ≠ some 45 := by
      cases C with
      | nil => rw [hmt] at hstart; exact hstart
      | cons c C => simpa using hstart
    rw [escape_stmt_trim_out buf junk fn C rest t lineno (by rw [h, hmt]; simp) hh hp]
    rfl

/-- C8 (witness). For `/* int x = 1; */` the output is the directive, the code as it is
and one newline, without any wrapper. -/
theorem C8_statement_block_witness :
    (bytesOf "*/" = bytesOf "*/" ∨ bytesOf "*/" = bytesOf "-*/") ∧
    (bytesOf "/* int x = 1; */").drop 2 = bytesOf " int x = 1; " ++ bytesOf "*/" ++ [] ∧
    (escape (bytesOf "/* int x = 1; */") (fun _ => 0) (bytesOf "t") 2 1).out =
      bytesOf "#line 1 \"t\"\n int x = 1; \n" :=
  ⟨Or.inl rfl, by decide,
    (C8_statement_block_output (bytesOf "/* int x = 1; */") (fun _ => 0) (bytesOf "t")
      (bytesOf " int x = 1; ") (bytesOf "*/") [] 2 1 (Or.inl rfl) (by decide) (by decide)
      (by decide) (fun _ => by decide)).trans (by decide)⟩

/-- C9. For a block whose interior starts with `-` and whose code `C`, the bytes after that
`-`, is ended by the closing marker `M`, plain or trim, `escape` writes the `#line`
directive, then `  emit_expr(`, then `C` as it is, then `);` and a newline; nothing else. -/
theorem C9_expression_block_output (buf : List Byte) (junk : Nat → Byte)
    (fn C M rest : List Byte) (t lineno : Nat)
    (hM : M = bytesOf "*/" ∨ M = bytesOf "-*/")
    (h : buf.drop t = bytesOf "-" ++ C ++ M ++ rest)
    (hp : hasPair 42 47 C = false)
    (hd : M = bytesOf "*/" → C.getLast? ≠ some 45) :
    (escape buf junk fn t lineno).out =
      bytesOf "#line " ++ fmtd lineno ++ bytesOf " \"" ++ fn ++ bytesOf "\"\n" ++
        bytesOf "  emit_expr(" ++ C ++ bytesOf ");\n" := by
  have hm : bytesOf "*/" = [42, 47] := by decide
  have hmt : bytesOf "-*/" = [45, 42, 47] := by decide
  have hdash : bytesOf "-" = [45] := by decide
  rcases hM with rfl | rfl
  · rw [escape_expr_plain buf junk fn C rest t lineno (by rw [h, hm, hdash]; simp) hp (hd rfl)]
    rfl
  · rw [escape_expr_trim_out buf junk fn C rest t lineno (by rw [h, hmt, hdash]; simp) hp]
    rfl

/-- C9 (witness). For `/*- 1+1 */` the output is the directive and one `emit_expr` call
around the code. -/
theorem C9_expression_block_witness :
    (bytesOf "*/" = bytesOf "*/" ∨ bytesOf "*/" = bytesOf "-*/") ∧
    (bytesOf "/*- 1+1 */").drop 2 = bytesOf "-" ++ bytesOf " 1+1 " ++ bytesOf "*/" ++ [] ∧
    (escape (bytesOf "/*- 1+1 */") (fun _ => 0) (bytesOf "t") 2 1).out =
      bytesOf "#line 1 \"t\"\n  emit_expr( 1+1 );\n" :=
  ⟨Or.inl rfl, by decide,
    (C9_expression_block_output (bytesOf "/*- 1+1 */") (fun _ => 0) (bytesOf "t")
      (bytesOf " 1+1 ") (bytesOf "*/") [] 2 1 (Or.inl rfl) (by decide) (by decide)
      (fun _ => by decide)).trans (by decide)⟩

/-- C10. On a buffer made of non-empty literal text `L` without `/*`, the marker `/*-`, code
`C` without `*/` that does not end in `-`, the marker `*/` and non-empty literal text `R`
without `/*`, `process` makes three calls and ends at `te`: the flush of `L`, `escape`,
the flush of `R`. What they write is, in this order and nothing else, the `emit`
statement of `L` with length argument `|L|`, the `#line` directive, the `emit_expr`
call around `C`, and the `emit` statement of `R` with length argument `|R|`. -/
theorem C10_literal_expression_literal (sc : Bool) (buf : List Byte) (junk : Nat → Byte)
    (fn L C R : List Byte)
    (hbuf : buf = L ++ bytesOf "/*-" ++ C ++ bytesOf "*/" ++ R)
    (hL : L ≠ []) (hR : R ≠ [])
    (hLno : hasPair 47 42 L = false) (hRno : hasPair 47 42 R = false)
    (hC : hasPair 42 47 C = false) (hCd : C.getLast? ≠ some 45) :
    (process buf junk fn).finished = true ∧
    (process buf junk fn).calls.length = 3 ∧
    output sc buf junk fn =
      emitStmt (escRun sc L) L.length ++
        (bytesOf "#line " ++ fmtd (1 + newlines L) ++ bytesOf " \"" ++ fn ++ bytesOf "\"\n") ++
        (bytesOf "  emit_expr(" ++ C ++ bytesOf ");\n") ++
        emitStmt (escRun sc R) R.length := by
  have hm : bytesOf "*/" = [42, 47] := by decide
  have ho : bytesOf "/*-" = [47, 42, 45] := by decide
  have hb : buf = L ++ 47 :: 42 :: 45 :: (C ++ 42 :: 47 :: R) := by
    rw [hbuf, hm, ho]; simp
  have hp := process_lit_expr_lit buf junk fn L C R hb hL hR hLno hRno hC hCd
  have mL : memSpan buf junk 0 L.length = L :=
    memSpan_of_drop buf junk L 0 _ (by rw [hb]; rfl)
  have mR : memSpan buf junk (L.length + 2 + 1 + C.length + 2) R.length = R := by
    have e := drop_add_of_drop buf 0 (L ++ 47 :: 42 :: 45 :: (C ++ [42, 47])) R
      (by rw [hb]; simp)
    refine memSpan_of_drop buf junk R _ [] ?_
    rw [List.append_nil, ← e]
    congr 1
    simp only [List.length_append, List.length_cons, List.length_nil]
    omega
  refine ⟨by rw [hp], by rw [hp]; rfl, ?_⟩
  unfold output
  rw [hp]
  simp only [writtenBy, Call.written, mL, mR, List.append_nil, lineDirective, flush_litrun,
    emitStmt, List.append_assoc]

/-- C10 (witness). `Hello /*- name */!` gives the `emit` statement of `Hello ` with length
6, the directive, the `emit_expr` call around ` name `, and the `emit` statement of `!`
with length 1. -/
theorem C10_literal_expression_literal_witness :
    bytesOf "Hello /*- name */!" =
      bytesOf "Hello " ++ bytesOf "/*-" ++ bytesOf " name " ++ bytesOf "*/" ++ bytesOf "!" ∧
    hasPair 47 42 (bytesOf "Hello ") = false ∧ hasPair 47 42 (bytesOf "!") = false ∧
    hasPair 42 47 (bytesOf " name ") = false ∧ (bytesOf " name ").getLast? ≠ some 45 ∧
    output false (bytesOf "Hello /*- name */!") (fun _ => 0) (bytesOf "t") =
      bytesOf ("  emit(\"Hello \", 6);\n#line 1 \"t\"\n  emit_expr( name );\n" ++
        "  emit(\"!\", 1);\n") :=
  ⟨by decide, by decide, by decide, by decide, by decide,
    (C10_literal_expression_literal false (bytesOf "Hello /*- name */!") (fun _ => 0)
      (bytesOf "t") (bytesOf "Hello ") (bytesOf " name ") (bytesOf "!") (by decide)
      (by decide) (by decide) (by decide) (by decide) (by decide) (by decide)).2.2.trans
      (by decide)⟩

/-! ## Properties of every run -/

/-- The flushes of two stretches of calls, one after the other. -/
theorem flushes_append (a b : List Call) : flushes (a ++ b) = flushes a ++ flushes b := by
  induction a with
  | nil => rfl
  | cons c a ih => cases c <;> simp [flushes, ih]

/-- The directives of two stretches of calls, one after the other. -/
theorem directives_append (a b : List Call) :
    directives (a ++ b) = directives a ++ directives b := by
  induction a with
  | nil => rfl
  | cons c a ih => cases c <;> simp [directives, ih]

/-- Every flush the driver loop makes is the flush of at least one byte. -/
theorem processLoop_flushes_pos (buf : List Byte) (junk : Nat → Byte) (fn : List Byte) :
    ∀ (fuel t lineno litstart litrun : Nat),
      ∀ p ∈ flushes (processLoop buf junk fn fuel t lineno litstart litrun).calls, 1 ≤ p.2 := by
  intro fuel
  induction fuel with
  | zero =>
    intro t lineno litstart litrun p hp
    simp [processLoop, flushes] at hp
  | succ fuel ih =>
    intro t lineno litstart litrun p hp
    rw [processLoop_succ] at hp
    by_cases h1 : t = buf.length
    · rw [if_pos h1] at hp
      by_cases h0 : 0 < litrun
      · simp only [if_pos h0, flushes, List.mem_singleton] at hp
        rw [hp]; exact h0
      · simp [if_neg h0, flushes] at hp
    · rw [if_neg h1] at hp
      by_cases h2 : buf.length < t
      · simp [if_pos h2, flushes] at hp
      · rw [if_neg h2] at hp
        by_cases h3 : (rd buf junk t).val = 47 ∧
            (if t + 1 ≠ buf.length then (rd buf junk (t + 1)).val else 0) = 42
        · rw [if_pos h3] at hp
          simp only [flushes_append, flushes, List.mem_append] at hp
          rcases hp with hp | hp
          · by_cases h0 : 0 < litrun
            · simp only [if_pos h0, flushes, List.mem_singleton] at hp
              rw [hp]; exact h0
            · simp [if_neg h0, flushes] at hp
          · exact ih _ _ _ _ p hp
        · rw [if_neg h3] at hp
          exact ih _ _ _ _ p hp

/-- The copy loop never decreases the line counter. -/
theorem escapeScan_lineno_ge (buf : List Byte) (junk : Nat → Byte) :
    ∀ (fuel t lineno : Nat) (copied : List Byte) (last : Nat),
      lineno ≤ (escapeScan buf junk fuel t lineno copied last).lineno := by
  intro fuel
  induction fuel with
  | zero => intro t lineno copied last; exact Nat.le_refl _
  | succ fuel ih =>
    intro t lineno copied last
    have hl : lineno ≤ (if (rd buf junk t).val = 10 then lineno + 1 else lineno) := by
      split_ifs <;> omega
    rw [escapeScan]
    simp only []
    split_ifs <;>
      first
      | exact Nat.le_refl _
      | exact Nat.le_succ _
      | exact Nat.le_trans (Nat.le_succ _) (ih _ _ _ _)
      | exact ih _ _ _ _

/-- The trailing-whitespace loop never decreases the line counter. -/
theorem eatWs_lineno_ge (buf : List Byte) (junk : Nat → Byte) :
    ∀ (fuel t lineno : Nat), lineno ≤ (eatWs buf junk fuel t lineno).2 := by
  intro fuel
  induction fuel with
  | zero => intro t lineno; exact Nat.le_refl _
  | succ fuel ih =>
    intro t lineno
    rw [eatWs]
    split_ifs <;>
      first
      | exact Nat.le_refl _
      | exact Nat.le_succ _
      | exact ih _ _

/-- `escape` never decreases the line counter. -/
theorem escape_lineno_ge (buf : List Byte) (junk : Nat → Byte) (fn : List Byte)
    (t lineno : Nat) : lineno ≤ (escape buf junk fn t lineno).lineno := by
  unfold escape
  simp only []
  split_ifs <;>
    first
    | exact escapeScan_lineno_ge buf junk _ _ _ _ _
    | exact Nat.le_trans (escapeScan_lineno_ge buf junk _ _ _ _ _) (eatWs_lineno_ge buf junk _ _ _)

/-- The line numbers of the directives written by the driver loop, in the order they are
written, never decrease, and none is below the line counter the loop starts with. -/
theorem processLoop_directives_sorted (buf : List Byte) (junk : Nat → Byte) (fn : List Byte) :
    ∀ (fuel t lineno litstart litrun : Nat),
      List.Pairwise (fun a b => a ≤ b)
        ((directives (processLoop buf junk fn fuel t lineno litstart litrun).calls).map
          Prod.snd) ∧
      ∀ n ∈ (directives (processLoop buf junk fn fuel t lineno litstart litrun).calls).map
          Prod.snd, lineno ≤ n := by
  intro fuel
  induction fuel with
  | zero =>
    intro t lineno litstart litrun
    simp [processLoop, directives]
  | succ fuel ih =>
    intro t lineno litstart litrun
    have hfl : directives (if 0 < litrun then [Call.flush litstart litrun] else []) = [] := by
      split_ifs <;> rfl
    have hl : lineno ≤ lineno + newlines [rd buf junk t] := Nat.le_add_right _ _
    rw [processLoop_succ]
    by_cases h1 : t = buf.length
    · rw [if_pos h1]
      simp [hfl]
    · rw [if_neg h1]
      by_cases h2 : buf.length < t
      · rw [if_pos h2]
        simp [directives]
      · rw [if_neg h2]
        by_cases h3 : (rd buf junk t).val = 47 ∧
            (if t + 1 ≠ buf.length then (rd buf junk (t + 1)).val else 0) = 42
        · rw [if_pos h3]
          obtain ⟨i1, i2⟩ := ih
            (escape buf junk fn (t + 2) (lineno + newlines [rd buf junk t])).t
            (escape buf junk fn (t + 2) (lineno + newlines [rd buf junk t])).lineno litstart 0
          have hge := escape_lineno_ge buf junk fn (t + 2) (lineno + newlines [rd buf junk t])
          simp only [directives_append, hfl, List.nil_append, directives, List.map_cons,
            List.pairwise_cons, List.mem_cons]
          refine ⟨⟨fun n hn => Nat.le_trans hge (i2 n hn), i1⟩, ?_⟩
          rintro n (rfl | hn)
          · exact hl
          · exact Nat.le_trans hl (Nat.le_trans hge (i2 n hn))
        · rw [if_neg h3]
          obtain ⟨i1, i2⟩ := ih (t + 1) (lineno + newlines [rd buf junk t])
            (if litrun = 0 then t else litstart) (litrun + 1)
          exact ⟨i1, fun n hn => Nat.le_trans hl (i2 n hn)⟩

/-- A flush among the calls of a run is listed among its flushes. -/
theorem mem_flushes (litstart litrun : Nat) :
    ∀ cs : List Call, Call.flush litstart litrun ∈ cs → (litstart, litrun) ∈ flushes cs := by
  intro cs
  induction cs with
  | nil => intro h; simp at h
  | cons c cs ih =>
    intro h
    rcases List.mem_cons.1 h with h | h
    · subst h; simp [flushes]
    · have g := ih h
      cases c <;> simp [flushes, g]

/-- The first place where a pair of bytes occurs in a list that contains it. -/
theorem hasPair_split (a b : Nat) :
    ∀ l : List Byte, hasPair a b l = true →
      ∃ (L : List Byte) (x y : Byte) (rest : List Byte),
        l = L ++ x :: y :: rest ∧ x.val = a ∧ y.val = b ∧ hasPair a b (L ++ [x]) = false := by
  intro l
  induction l with
  | nil => intro h; simp [hasPair] at h
  | cons x l ih =>
    intro h
    cases l with
    | nil => simp [hasPair] at h
    | cons y r =>
      by_cases hxy : x.val = a ∧ y.val = b
      · exact ⟨[], x, y, r, rfl, hxy.1, hxy.2, rfl⟩
      · have h2 : hasPair a b (y :: r) = true := by
          simp only [hasPair, Bool.or_eq_true, Bool.and_eq_true, decide_eq_true_eq] at h
          rcases h with h | h
          · exact absurd h hxy
          · exact h
        obtain ⟨L, x2, y2, rest, e, hx, hy, hno⟩ := ih h2
        refine ⟨x :: L, x2, y2, rest, by rw [e]; rfl, hx, hy, ?_⟩
        cases L with
        | nil =>
          simp only [List.nil_append, List.cons.injEq] at e
          obtain ⟨rfl, _⟩ := e
          simp only [List.cons_append, List.nil_append, hasPair, Bool.or_false,
            Bool.and_eq_false_iff, decide_eq_false_iff_not]
          by_cases g : x.val = a
          · exact Or.inr (fun g2 => hxy ⟨g, g2⟩)
          · exact Or.inl g
        | cons z L =>
          simp only [List.cons_append, List.cons.injEq] at e
          obtain ⟨rfl, _⟩ := e
          have hno2 : hasPair a b (y :: (L ++ [x2])) = false := by simpa using hno
          simp only [List.cons_append, hasPair, Bool.or_eq_false_iff, Bool.and_eq_false_iff,
            decide_eq_false_iff_not]
          refine ⟨?_, hno2⟩
          by_cases g : x.val = a
          · exact Or.inr (fun g2 => hxy ⟨g, g2⟩)
          · exact Or.inl g

/-- On a buffer that contains `/*`, `process` calls `escape`. -/
theorem process_directive_of_open (buf : List Byte) (junk : Nat → Byte) (fn : List Byte)
    (h : hasPair 47 42 buf = true) : directives (process buf junk fn).calls ≠ [] := by
  obtain ⟨L, x, y, rest, e, hx, hy, hno⟩ := hasPair_split 47 42 buf h
  have ex : x = 47 := byte_of_val x 47 hx
  have ey : y = 42 := byte_of_val y 42 hy
  subst ex ey
  have hlen : buf.length + 1 = L.length + ((rest.length + 2) + 1) := by
    rw [e]
    simp only [List.length_append, List.length_cons]
    omega
  have d0 : buf.drop 0 = L ++ 47 :: 42 :: rest := by rw [e]; rfl
  have d1 : buf.drop (0 + L.length) = 47 :: 42 :: rest := drop_add_of_drop buf 0 L _ d0
  unfold process
  rw [hlen, processLoop_literal buf junk fn _ L _ 0 1 0 0 d0 (by simpa using hno),
    processLoop_open buf junk fn _ _ _ _ _ rest d1]
  simp only [directives_append, directives]
  intro g
  have := congrArg List.length g
  simp at this

/-! ## An escape block that is not closed -/

/-- The copy loop on a block that is not closed, when the byte behind the buffer is neither
`/` nor `*`: all that is left of the buffer is copied and the loop ends at `te`, without
trim. -/
theorem escapeScan_unterminated (buf : List Byte) (junk : Nat → Byte)
    (hj : (junk 0).val ≠ 47 ∧ (junk 0).val ≠ 42) :
    ∀ (X : List Byte) (k t lineno : Nat) (copied : List Byte) (last : Nat),
      buf.drop t = X → t ≤ buf.length → hasPair 42 47 X = false →
      escapeScan buf junk (X.length + (k + 1)) t lineno copied last =
        ⟨buf.length, lineno + newlines X, copied ++ X, lastOut last X, false⟩ := by
  intro X
  induction X with
  | nil =>
    intro k t lineno copied last h ht _
    have hlen : t = buf.length := by
      have e := congrArg List.length h
      rw [List.length_drop] at e
      simp only [List.length_nil] at e
      omega
    simp only [List.length_nil, Nat.zero_add, escapeScan, if_pos hlen, newlines, lastOut,
      List.append_nil, Nat.add_zero]
    rw [hlen]
  | cons c X ih =>
    intro k t lineno copied last h ht hp
    have hlen := length_of_drop buf t c X h
    have hfuel : (c :: X).length + (k + 1) = (X.length + (k + 1)) + 1 := by
      simp only [List.length_cons]; omega
    have h12 : ¬ (c.val = 42 ∧ (rd buf junk (t + 1)).val = 47) ∧
        ¬ (c.val = 45 ∧ (rd buf junk (t + 1)).val = 42 ∧ (rd buf junk (t + 2)).val = 47) := by
      rcases X with _ | ⟨d, _ | ⟨e, X⟩⟩
      · have e1 : rd buf junk (t + 1) = junk 0 := by
          have : t + 1 = buf.length := by simpa using hlen.symm
          rw [this, rd_at_end]
        rw [e1]
        exact ⟨fun g => hj.1 g.2, fun g => hj.2 g.2.1⟩
      · have e1 := rd_of_drop buf junk t 1 _ d h (by simp)
        have e2 : rd buf junk (t + 2) = junk 0 := by
          have : t + 2 = buf.length := by simpa using hlen.symm
          rw [this, rd_at_end]
        rw [e1, e2]
        exact ⟨(hasPair_cons_cons 42 47 c d [] hp).1, fun g => hj.1 g.2.2⟩
      · have e1 := rd_of_drop buf junk t 1 _ d h (by simp)
        have e2 := rd_of_drop buf junk t 2 _ e h (by simp)
        rw [e1, e2]
        have p1 := hasPair_cons_cons 42 47 c d (e :: X) hp
        have p2 := hasPair_cons_cons 42 47 d e X p1.2
        exact ⟨p1.1, fun g => p2.1 g.2⟩
    rw [hfuel, escapeScan_step buf junk _ t lineno copied last c _ h h12.1 h12.2,
      ih k (t + 1) _ _ _ (drop_succ_of_drop buf t c _ h) (by omega) (hasPair_tail 42 47 c X hp)]
    have hl : lineno + newlines [c] + newlines X = lineno + newlines (c :: X) := by
      simp only [newlines]; omega
    rw [hl]
    simp [lastOut]

/-- `escape` on a block that is not closed, when the byte behind the buffer is neither `/`
nor `*`: it returns `te`, and writes the directive, all that is left of the buffer after
the optional `-`, and the closing text of a complete block. -/
theorem escape_unterminated (buf : List Byte) (junk : Nat → Byte) (fn I : List Byte)
    (t lineno : Nat) (hj : (junk 0).val ≠ 47 ∧ (junk 0).val ≠ 42)
    (h : buf.drop t = I) (ht : t ≤ buf.length) (hp : hasPair 42 47 I = false) :
    (escape buf junk fn t lineno).t = buf.length ∧
    (escape buf junk fn t lineno).out =
      lineDirective fn lineno ++
        (if I.head? = some 45 then bytesOf "  emit_expr(" ++ I.tail ++ bytesOf ");\n"
         else I ++ (if I.getLast? = some 10 then [] else bytesOf "\n")) := by
  have hnl : ∀ C : List Byte, (if lastOut 0 C ≠ 10 then bytesOf "\n" else []) =
      (if C.getLast? = some 10 then [] else bytesOf "\n") := by
    intro C
    by_cases g : C.getLast? = some 10
    · simp [g, (lastOut_newline C).2 g]
    · have : ¬ lastOut 0 C = 10 := fun e => g ((lastOut_newline C).1 e)
      simp [g, this]
  cases I with
  | nil =>
    have hlen : t = buf.length := by
      have e := congrArg List.length h
      rw [List.length_drop] at e
      simp only [List.length_nil] at e
      omega
    have hexpr : (decide (t ≠ buf.length) && decide ((rd buf junk t).val = 45)) = false := by
      simp [hlen]
    have hs := escapeScan_unterminated buf junk hj [] (buf.length - t) t lineno [] 0 h ht rfl
    simp only [List.length_nil, Nat.zero_add] at hs
    unfold escape
    simp only [hexpr, Bool.false_eq_true, if_false, hs, List.nil_append, List.append_nil, hnl]
    simp
  | cons c I =>
    have hlen := length_of_drop buf t c I h
    have hc := rd_head buf junk t c I h
    by_cases g : c.val = 45
    · have hexpr : (decide (t ≠ buf.length) && decide ((rd buf junk t).val = 45)) = true := by
        have hne : t ≠ buf.length := by omega
        simp [hc, g, hne]
      have hs := escapeScan_unterminated buf junk hj I 0 (t + 1) lineno [] 0
        (drop_succ_of_drop buf t c I h) (by omega) (hasPair_tail 42 47 c I hp)
      have hf : buf.length - (t + 1) + 1 = I.length + (0 + 1) := by omega
      have hh : (c :: I).head? = some 45 := by
        rw [List.head?_cons, byte_of_val c 45 g]
      unfold escape
      simp only [hexpr, if_true, hf, hs, List.nil_append, Bool.false_eq_true, if_false, hh,
        List.tail_cons, List.append_assoc, and_self]
    · have hexpr : (decide (t ≠ buf.length) && decide ((rd buf junk t).val = 45)) = false := by
        simp [hc, g]
      have hs := escapeScan_unterminated buf junk hj (c :: I) 0 t lineno [] 0 h ht hp
      have hf : buf.length - t + 1 = (c :: I).length + (0 + 1) := by
        simp only [List.length_cons]; omega
      have hh : ¬ (c :: I).head? = some 45 := by
        rw [List.head?_cons]
        intro e
        exact g (by rw [Option.some.inj e]; rfl)
      unfold escape
      simp only [hexpr, Bool.false_eq_true, if_false, hf, hs, List.nil_append, hnl, if_neg hh,
        List.append_assoc, and_self]

/-! ## The text of an `emit` statement -/

/-- Every decimal digit character has a code from `0x30` to `0x39`. -/
theorem digitChar_range : ∀ k, k < 10 →
    48 ≤ (Nat.digitChar k).toNat ∧ (Nat.digitChar k).toNat ≤ 57 := by
  decide

/-- Every character of the decimal digits of a number is a digit. -/
theorem toDigitsCore_range : ∀ (fuel n : Nat) (ds : List Char),
    (∀ c ∈ ds, 48 ≤ c.toNat ∧ c.toNat ≤ 57) →
    ∀ c ∈ Nat.toDigitsCore 10 fuel n ds, 48 ≤ c.toNat ∧ c.toNat ≤ 57 := by
  intro fuel
  induction fuel with
  | zero => intro n ds h; simpa [Nat.toDigitsCore] using h
  | succ fuel ih =>
    intro n ds h
    have hd := digitChar_range (n % 10) (Nat.mod_lt n (by decide))
    have h2 : ∀ c ∈ Nat.digitChar (n % 10) :: ds, 48 ≤ c.toNat ∧ c.toNat ≤ 57 := by
      intro c hc
      rcases List.mem_cons.1 hc with rfl | hc
      · exact hd
      · exact h c hc
    simp only [Nat.toDigitsCore]
    split_ifs
    · exact h2
    · exact ih _ _ h2

/-- The text of `%d` consists of digits. -/
theorem fmtd_range (n : Nat) : ∀ x ∈ fmtd n, 48 ≤ x.val ∧ x.val ≤ 57 := by
  intro x hx
  simp only [fmtd, List.mem_map] at hx
  obtain ⟨c, hc, rfl⟩ := hx
  have h := toDigitsCore_range (n + 1) n [] (by simp) c hc
  have e : (Fin.ofNat c.toNat : Byte).val = c.toNat := by
    simp only [Fin.ofNat]
    omega
  rw [e]
  exact h

/-- The newlines of two texts, one after the other. -/
theorem newlines_append (a b : List Byte) : newlines (a ++ b) = newlines a + newlines b := by
  induction a with
  | nil => simp [newlines]
  | cons c a ih =>
    have e : newlines (c :: (a ++ b)) = (if c.val = 10 then 1 else 0) + newlines (a ++ b) := rfl
    rw [List.cons_append, e, ih]
    simp only [newlines]
    omega

/-- A text without newline byte has no newlines. -/
theorem newlines_eq_zero (l : List Byte) (h : ∀ x ∈ l, x.val ≠ 10) : newlines l = 0 := by
  induction l with
  | nil => rfl
  | cons c l ih =>
    have hc := h c (List.mem_cons_self c l)
    simp only [newlines, if_neg hc, Nat.zero_add]
    exact ih (fun x hx => h x (List.mem_cons_of_mem c hx))

set_option maxRecDepth 1000000 in
/-- Whatever the byte and the signedness of `char`, the escaper writes printable characters
only, and it writes a double quote only as the second character of the pair `\"`. -/
theorem escByte_printable : ∀ (sc : Bool) (b : Byte),
    (escByte sc b).all (fun x => decide (32 ≤ x.val) && decide (x.val ≤ 126)) = true ∧
    (escByte sc b = [92, 34] ∨ (escByte sc b).all (fun x => decide (x.val ≠ 34)) = true) ∧
    quoteSafe (escByte sc b) = true := by
  decide

/-- A byte other than the double quote and the backslash does not change whether a double
quote ends the literal later on. -/
theorem hasBareQuote_skip (x : Byte) (h34 : x.val ≠ 34) (h92 : x.val ≠ 92) (l : List Byte) :
    hasBareQuote (x :: l) = hasBareQuote l := by
  cases l with
  | nil => simp [hasBareQuote, h34]
  | cons d r => simp [hasBareQuote, h34, h92]

/-- A piece of quoted text that is safe does not change whether a double quote ends the
literal after it. -/
theorem hasBareQuote_quoteSafe (p rest : List Byte) (h : quoteSafe p = true) :
    hasBareQuote (p ++ rest) = hasBareQuote rest := by
  have hskip : ∀ tl : List Byte,
      tl.all (fun x => decide (x.val ≠ 34) && decide (x.val ≠ 92)) = true →
      hasBareQuote (tl ++ rest) = hasBareQuote rest := by
    intro tl
    induction tl with
    | nil => intro _; rfl
    | cons x tl ih =>
      intro hx
      simp only [List.all_cons, Bool.and_eq_true, decide_eq_true_eq] at hx
      rw [List.cons_append, hasBareQuote_skip x hx.1.1 hx.1.2, ih hx.2]
  rcases p with _ | ⟨c, _ | ⟨d, tl⟩⟩
  · simp [quoteSafe] at h
  · simp only [quoteSafe, Bool.and_eq_true, decide_eq_true_eq] at h
    exact hasBareQuote_skip c h.1 h.2 rest
  · simp only [quoteSafe, Bool.and_eq_true, decide_eq_true_eq] at h
    simp only [List.cons_append, hasBareQuote, if_pos h.1]
    exact hskip tl h.2

/-- The quoted text of a literal run consists of printable characters. -/
theorem escRun_printable (sc : Bool) (run : List Byte) :
    ∀ x ∈ escRun sc run, 32 ≤ x.val ∧ x.val ≤ 126 := by
  induction run with
  | nil => intro x hx; simp [escRun] at hx
  | cons b bs ih =>
    intro x hx
    simp only [escRun, List.mem_append] at hx
    rcases hx with hx | hx
    · have h := (escByte_printable sc b).1
      rw [List.all_eq_true] at h
      simpa using h x hx
    · exact ih x hx

/-- In the quoted text of a literal run, read from the left, no double quote ends the
literal. -/
theorem escRun_no_bare_quote (sc : Bool) (run : List Byte) :
    hasBareQuote (escRun sc run) = false := by
  induction run with
  | nil => rfl
  | cons b bs ih =>
    rw [escRun, hasBareQuote_quoteSafe _ _ (escByte_printable sc b).2.2, ih]

/-! ## The lines of the output -/

/-- A text begins with itself, whatever follows. -/
theorem beginsWith_append (p more : List Byte) : beginsWith p (p ++ more) = true := by
  induction p with
  | nil => rfl
  | cons a p ih => simp [beginsWith, ih]

/-- A text that is read from the beginning of a line and begins with `#line ` has a line
that begins with `#line `. -/
theorem hasLine_here (more : List Byte) :
    hasLine (bytesOf "#line ") true (bytesOf "#line " ++ more) = true := by
  have e : bytesOf "#line " ++ more = 35 :: (bytesOf "line " ++ more) := by
    have : bytesOf "#line " = 35 :: bytesOf "line " := by decide
    rw [this]; rfl
  have hb := beginsWith_append (bytesOf "#line ") more
  rw [e] at hb ⊢
  rw [hasLine, hb]
  rfl

/-- A line found after a newline is a line of the whole text. -/
theorem hasLine_after_newline (p l : List Byte) (h : hasLine p true l = true) :
    ∀ (a : List Byte) (f : Bool), hasLine p f (a ++ 10 :: l) = true := by
  intro a
  induction a with
  | nil =>
    intro f
    have h10 : decide ((10 : Byte).val = 10) = true := by decide
    rw [List.nil_append, hasLine, h10, h]
    simp
  | cons c a ih =>
    intro f
    rw [List.cons_append, hasLine, ih]
    simp

/-- A text without newline except at its very end has no line after its first. -/
theorem hasLine_no_newline (p : List Byte) :
    ∀ a : List Byte, (∀ x ∈ a, x.val ≠ 10) → hasLine p false (a ++ [10]) = false := by
  intro a
  induction a with
  | nil => intro _; simp [hasLine]
  | cons c a ih =>
    intro h
    have hc : decide (c.val = 10) = false := by
      simpa using h c (List.mem_cons_self c a)
    rw [List.cons_append, hasLine, hc, ih (fun x hx => h x (List.mem_cons_of_mem c hx))]
    rfl

set_option maxRecDepth 100000 in
/-- What `flush_litrun` writes is a space, a text without newline, and a newline. -/
theorem flush_litrun_shape (sc : Bool) (run : List Byte) :
    ∃ mid : List Byte, flush_litrun sc run = 32 :: (mid ++ [10]) ∧ ∀ x ∈ mid, x.val ≠ 10 := by
  refine ⟨bytesOf " emit(\"" ++ escRun sc run ++ (bytesOf "\", " ++ fmtd run.length ++
    bytesOf ");"), ?_, ?_⟩
  · have h1 : bytesOf "  emit(\"" = 32 :: bytesOf " emit(\"" := by decide
    have h2 : bytesOf ");\n" = bytesOf ");" ++ [10] := by decide
    simp only [flush_litrun, h1, h2, List.cons_append, List.append_assoc]
  · intro x hx
    simp only [List.mem_append] at hx
    rcases hx with (hx | hx) | (hx | hx) | hx
    · have : ∀ y ∈ bytesOf " emit(\"", y.val ≠ 10 := by decide
      exact this x hx
    · have := escRun_printable sc run x hx
      omega
    · have : ∀ y ∈ bytesOf "\", ", y.val ≠ 10 := by decide
      exact this x hx
    · have := fmtd_range run.length x hx
      omega
    · have : ∀ y ∈ bytesOf ");", y.val ≠ 10 := by decide
      exact this x hx

/-- No line of what `flush_litrun` writes begins with `#line `. -/
theorem hasLine_flush_litrun (sc : Bool) (run : List Byte) :
    hasLine (bytesOf "#line ") true (flush_litrun sc run) = false := by
  obtain ⟨mid, e, hmid⟩ := flush_litrun_shape sc run
  have hb : beginsWith (bytesOf "#line ") (32 :: (mid ++ [10])) = false := by
    have : bytesOf "#line " = 35 :: bytesOf "line " := by decide
    rw [this, beginsWith]
    have h35 : decide ((35 : Byte) = 32) = false := by decide
    rw [h35]
    rfl
  have h32 : decide ((32 : Byte).val = 10) = false := by decide
  rw [e, hasLine, hb, h32, hasLine_no_newline _ mid hmid]
  rfl

/-- What `escape` writes begins with the `#line` directive of the line counter it is
given. -/
theorem escape_out_begins (buf : List Byte) (junk : Nat → Byte) (fn : List Byte)
    (t lineno : Nat) :
    ∃ more, (escape buf junk fn t lineno).out = lineDirective fn lineno ++ more := by
  unfold escape
  exact ⟨_, List.append_assoc _ _ _ |>.trans (List.append_assoc _ _ _)⟩

/-- What two stretches of calls write, one after the other. -/
theorem writtenBy_append (sc : Bool) (buf : List Byte) (junk : Nat → Byte)
    (a b : List Call) :
    writtenBy sc buf junk (a ++ b) = writtenBy sc buf junk a ++ writtenBy sc buf junk b := by
  induction a with
  | nil => rfl
  | cons c a ih => simp [writtenBy, ih]

/-- On a buffer that contains `/*`, with `L` the bytes before the first `/*`: the calls of
`process` begin with the flush of `L`, when `L` is not empty, and the call of `escape`
for that block. -/
theorem process_first_open (buf : List Byte) (junk : Nat → Byte) (fn : List Byte)
    (h : hasPair 47 42 buf = true) :
    ∃ (L rest : List Byte) (more : List Call), buf = L ++ 47 :: 42 :: rest ∧
      hasPair 47 42 (L ++ [47]) = false ∧
      (process buf junk fn).calls =
        (if 0 < L.length then [Call.flush 0 L.length] else []) ++
          Call.escape (L.length + 2) (1 + newlines L)
            (escape buf junk fn (L.length + 2) (1 + newlines L)) :: more := by
  obtain ⟨L, x, y, rest, e, hx, hy, hno⟩ := hasPair_split 47 42 buf h
  have ex : x = 47 := byte_of_val x 47 hx
  have ey : y = 42 := byte_of_val y 42 hy
  subst ex ey
  have hlen : buf.length + 1 = L.length + ((rest.length + 2) + 1) := by
    rw [e]
    simp only [List.length_append, List.length_cons]
    omega
  have d0 : buf.drop 0 = L ++ 47 :: 42 :: rest := by rw [e]; rfl
  have d1 : buf.drop (0 + L.length) = 47 :: 42 :: rest := drop_add_of_drop buf 0 L _ d0
  refine ⟨L, rest,
    (processLoop buf junk fn (rest.length + 2)
      (escape buf junk fn (L.length + 2) (1 + newlines L)).t
      (escape buf junk fn (L.length + 2) (1 + newlines L)).lineno 0 0).calls, e, hno, ?_⟩
  unfold process
  rw [hlen, processLoop_literal buf junk fn _ L _ 0 1 0 0 d0 (by simpa using hno),
    processLoop_open buf junk fn _ _ _ _ _ rest d1]
  simp only [Nat.zero_add, ite_self]

/-- On a buffer that contains `/*`, the output of `process` holds a `#line` directive at
the beginning of a line: before it is nothing, or text that ends in a newline. -/
theorem output_directive_of_open (sc : Bool) (buf : List Byte) (junk : Nat → Byte)
    (fn : List Byte) (h : hasPair 47 42 buf = true) :
    ∃ (front back : List Byte) (n : Nat),
      output sc buf junk fn = front ++ lineDirective fn n ++ back ∧
      (front = [] ∨ ∃ a, front = a ++ [10]) := by
  obtain ⟨L, rest, more, _, _, hc⟩ := process_first_open buf junk fn h
  obtain ⟨tl, ht⟩ := escape_out_begins buf junk fn (L.length + 2) (1 + newlines L)
  unfold output
  rw [hc, writtenBy_append]
  simp only [writtenBy, Call.written, ht]
  by_cases hL : 0 < L.length
  · obtain ⟨mid, e, _⟩ := flush_litrun_shape sc (memSpan buf junk 0 L.length)
    refine ⟨32 :: (mid ++ [10]), tl ++ writtenBy sc buf junk more, 1 + newlines L, ?_,
      Or.inr ⟨32 :: mid, by simp⟩⟩
    simp only [if_pos hL, writtenBy, Call.written, e, List.append_nil, List.append_assoc]
  · refine ⟨[], tl ++ writtenBy sc buf junk more, 1 + newlines L, ?_, Or.inl rfl⟩
    simp only [if_neg hL, writtenBy, List.nil_append, List.append_assoc]

/-- A `#line` directive at the beginning of a line makes a line that begins with
`#line `. -/
theorem hasLine_of_directive (fn front back : List Byte) (n : Nat)
    (hf : front = [] ∨ ∃ a, front = a ++ [10]) :
    hasLine (bytesOf "#line ") true (front ++ lineDirective fn n ++ back) = true := by
  have e : lineDirective fn n ++ back =
      bytesOf "#line " ++ (fmtd n ++ bytesOf " \"" ++ fn ++ bytesOf "\"\n" ++ back) := by
    simp only [lineDirective, List.append_assoc]
  rcases hf with rfl | ⟨a, rfl⟩
  · rw [List.nil_append, e]
    exact hasLine_here _
  · have := hasLine_after_newline (bytesOf "#line ") _ (hasLine_here
      (fmtd n ++ bytesOf " \"" ++ fn ++ bytesOf "\"\n" ++ back)) a true
    rw [List.append_assoc, e, List.append_assoc]
    exact this

/-! ## The claims, continued -/

/-- C11. Every call of `flush_litrun` that `process` makes has a length argument of at
least 1, whatever the input and whatever lies behind the buffer. -/
theorem C11_no_empty_flush (buf : List Byte) (junk : Nat → Byte) (fn : List Byte)
    (litstart litrun : Nat)
    (h : Call.flush litstart litrun ∈ (process buf junk fn).calls) : 1 ≤ litrun :=
  processLoop_flushes_pos buf junk fn (buf.length + 1) 0 1 0 0 (litstart, litrun)
    (mem_flushes litstart litrun _ h)

/-- C11 (witness). Two blocks with one space between them give exactly one flush, of the
space at index 7, with length 1; two blocks with nothing between them give no flush. -/
theorem C11_no_empty_flush_witness :
    Call.flush 7 1 ∈ (process (bytesOf "/* a */ /* b */") (fun _ => 0) (bytesOf "t")).calls ∧
    1 ≤ 1 ∧
    flushes (process (bytesOf "/* a */ /* b */") (fun _ => 0) (bytesOf "t")).calls = [(7, 1)] ∧
    flushes (process (bytesOf "/* a *//* b */") (fun _ => 0) (bytesOf "t")).calls = [] :=
  ⟨by decide,
    C11_no_empty_flush (bytesOf "/* a */ /* b */") (fun _ => 0) (bytesOf "t") 7 1 (by decide),
    by decide, by decide⟩

/-- C13. The numbers printed in the `#line` directives of a run never decrease from one
directive to the next, and each of them, the first included, is at least 1. -/
theorem C13_line_directives_monotone (buf : List Byte) (junk : Nat → Byte) (fn : List Byte) :
    List.Chain' (fun a b => a ≤ b) ((directives (process buf junk fn).calls).map Prod.snd) ∧
    ∀ n ∈ (directives (process buf junk fn).calls).map Prod.snd, 1 ≤ n := by
  obtain ⟨h1, h2⟩ := processLoop_directives_sorted buf junk fn (buf.length + 1) 0 1 0 0
  exact ⟨List.Pairwise.chain' h1, h2⟩

/-- C13 (witness). Three blocks on the lines 2, 3 and 3 of a template. -/
theorem C13_line_directives_monotone_witness :
    (directives (process (bytesOf "a\n/* x */\n /* y *//* z */") (fun _ => 0)
      (bytesOf "t")).calls).map Prod.snd = [2, 3, 3] ∧
    List.Chain' (fun a b => a ≤ b) ((directives (process
      (bytesOf "a\n/* x */\n /* y *//* z */") (fun _ => 0) (bytesOf "t")).calls).map Prod.snd) ∧
    (2 ∈ (directives (process (bytesOf "a\n/* x */\n /* y *//* z */") (fun _ => 0)
      (bytesOf "t")).calls).map Prod.snd → 1 ≤ 2) :=
  ⟨by decide,
    (C13_line_directives_monotone (bytesOf "a\n/* x */\n /* y *//* z */") (fun _ => 0)
      (bytesOf "t")).1,
    (C13_line_directives_monotone (bytesOf "a\n/* x */\n /* y *//* z */") (fun _ => 0)
      (bytesOf "t")).2 2⟩

/-- C14. In the copy loop of `escape`, started at the first byte after the optional `-`,
when the bytes `C` contain no `*/` and are followed by a closing marker `M` (the plain
`*/` when it is not preceded by `-`, else the trim marker `-*/`), exactly the bytes of
`C` are copied, the pointer moves over `C` and over all the bytes of `M`, and the trim
flag is set exactly when `M` is the trim marker. -/
theorem C14_close_marker_recognition (buf : List Byte) (junk : Nat → Byte)
    (C M rest : List Byte) (fuel t lineno : Nat) (copied : List Byte) (last : Nat)
    (hM : M = bytesOf "*/" ∨ M = bytesOf "-*/")
    (h : buf.drop t = C ++ M ++ rest)
    (hp : hasPair 42 47 C = false)
    (hd : M = bytesOf "*/" → C.getLast? ≠ some 45)
    (hf : C.length < fuel) :
    escapeScan buf junk fuel t lineno copied last =
      ⟨t + C.length + M.length, lineno + newlines C, copied ++ C, lastOut last C,
        decide (M = bytesOf "-*/")⟩ := by
  have hm : bytesOf "*/" = [42, 47] := by decide
  have hmt : bytesOf "-*/" = [45, 42, 47] := by decide
  rcases hM with rfl | rfl
  · rw [escapeScan_plain buf junk C rest fuel t lineno copied last (by rw [h, hm]; simp) hp
      (hd rfl) hf]
    rfl
  · rw [escapeScan_trim buf junk C rest fuel t lineno copied last (by rw [h, hmt]; simp) hp hf]
    rfl

/-- C14 (witness). In `/* a-b -*/ x` the copy loop started at index 2 copies ` a-b `, moves
over its five bytes and the three bytes of the trim marker, and sets the trim flag. -/
theorem C14_close_marker_recognition_witness :
    (bytesOf "/* a-b -*/ x").drop 2 = bytesOf " a-b " ++ bytesOf "-*/" ++ bytesOf " x" ∧
    hasPair 42 47 (bytesOf " a-b ") = false ∧
    escapeScan (bytesOf "/* a-b -*/ x") (fun _ => 0) 11 2 1 [] 0 =
      ⟨10, 1, bytesOf " a-b ", 32, true⟩ :=
  ⟨by decide, by decide,
    (C14_close_marker_recognition (bytesOf "/* a-b -*/ x") (fun _ => 0) (bytesOf " a-b ")
      (bytesOf "-*/") (bytesOf " x") 11 2 1 [] 0 (Or.inr rfl) (by decide) (by decide)
      (fun g => absurd g (by decide)) (by decide)).trans (by decide)⟩

/-- C17. When the bytes after the opening marker are `-*/`, `escape` takes the `-` as the
expression marker and `*/` as the plain closing marker: it writes the directive and
`  emit_expr();` with a newline, returns the pointer right after the `/` whatever
follows, and leaves the line counter as it was. -/
theorem C17_dash_star_slash (buf : List Byte) (junk : Nat → Byte) (fn rest : List Byte)
    (t lineno : Nat) (h : buf.drop t = bytesOf "-*/" ++ rest) :
    escape buf junk fn t lineno =
      ⟨t + 3, lineno, bytesOf "#line " ++ fmtd lineno ++ bytesOf " \"" ++ fn ++ bytesOf "\"\n" ++
        bytesOf "  emit_expr();\n"⟩ ∧
    buf.drop (escape buf junk fn t lineno).t = rest := by
  have hmt : bytesOf "-*/" = [45, 42, 47] := by decide
  have h0 : buf.drop t = 45 :: ([] ++ 42 :: 47 :: rest) := by rw [h, hmt]; rfl
  have he := escape_expr_plain buf junk fn [] rest t lineno h0 rfl (by simp)
  have hr : buf.drop (t + 3) = rest := by
    simpa using drop_add_of_drop buf t [45, 42, 47] rest (by rw [h, hmt])
  refine ⟨?_, by rw [he]; exact hr⟩
  rw [he]
  have e1 : bytesOf "  emit_expr(" ++ [] ++ bytesOf ");\n" = bytesOf "  emit_expr();\n" := by
    decide
  simp only [lineDirective, newlines, List.length_nil, List.append_assoc, EscOut.mk.injEq,
    Nat.add_zero, true_and]
  rw [← e1]
  simp

/-- C17 (witness). For `/*-*/` followed by a space, a newline and `x`, `escape` returns the
pointer `5`, and the space and the newline are emitted as literal text. -/
theorem C17_dash_star_slash_witness :
    (bytesOf "/*-*/ \nx").drop 2 = bytesOf "-*/" ++ bytesOf " \nx" ∧
    (escape (bytesOf "/*-*/ \nx") (fun _ => 0) (bytesOf "t") 2 1).t = 5 ∧
    output false (bytesOf "/*-*/ \nx") (fun _ => 0) (bytesOf "t") =
      bytesOf "#line 1 \"t\"\n  emit_expr();\n  emit(\" \\nx\", 3);\n" :=
  ⟨by decide,
    congrArg EscOut.t (C17_dash_star_slash (bytesOf "/*-*/ \nx") (fun _ => 0) (bytesOf "t")
      (bytesOf " \nx") 2 1 (by decide)).1,
    by decide⟩

/-- C19. On the empty buffer `process` makes no call and writes nothing. On any buffer, the
output of `process` has a line that begins with `#line ` exactly when the buffer contains
`/*`; when it does, the output holds the whole directive `#line N "fn"` of a call of
`escape` at the beginning of a line; and `process` calls `escape` exactly when the buffer
contains `/*`. -/
theorem C19_directive_iff_open_marker (sc : Bool) (buf : List Byte) (junk : Nat → Byte)
    (fn : List Byte) :
    (process [] junk fn).calls = [] ∧ output sc [] junk fn = [] ∧
    (hasLine (bytesOf "#line ") true (output sc buf junk fn) = true ↔
      hasPair 47 42 buf = true) ∧
    (hasPair 47 42 buf = true →
      ∃ (front back : List Byte) (n : Nat),
        output sc buf junk fn = front ++ lineDirective fn n ++ back ∧
        (front = [] ∨ ∃ a, front = a ++ [10])) ∧
    (directives (process buf junk fn).calls ≠ [] ↔ hasPair 47 42 buf = true) := by
  have hnone : hasPair 47 42 buf = false →
      hasLine (bytesOf "#line ") true (output sc buf junk fn) = false ∧
      directives (process buf junk fn).calls = [] := by
    intro g
    unfold output
    rw [process_literal_only buf junk fn g]
    by_cases hl : 0 < buf.length
    · simp only [if_pos hl, writtenBy, Call.written, List.append_nil, directives, and_true]
      exact hasLine_flush_litrun sc _
    · simp only [if_neg hl, writtenBy, directives, and_true]
      rfl
  have hsome := output_directive_of_open sc buf junk fn
  refine ⟨rfl, rfl, ⟨?_, ?_⟩, hsome, ⟨?_, process_directive_of_open buf junk fn⟩⟩
  · intro h
    by_contra g
    have g2 : hasPair 47 42 buf = false := by simpa using g
    rw [(hnone g2).1] at h
    exact absurd h (by decide)
  · intro h
    obtain ⟨front, back, n, e, hf⟩ := hsome h
    rw [e]
    exact hasLine_of_directive fn front back n hf
  · intro h
    by_contra g
    have g2 : hasPair 47 42 buf = false := by simpa using g
    exact h (hnone g2).2

/-- C19 (witness). `a/*b` contains `/*`: the output has the directive on a line of its own
after the `emit` statement of `a`. `a/b*` does not: the output is one `emit` statement
and no line of it begins with `#line `; nor does one when the literal text itself is
`#line 1`. -/
theorem C19_directive_iff_open_marker_witness :
    hasPair 47 42 (bytesOf "a/*b") = true ∧
    hasLine (bytesOf "#line ") true
      (output false (bytesOf "a/*b") (fun _ => 0) (bytesOf "t")) = true ∧
    output false (bytesOf "a/*b") (fun _ => 0) (bytesOf "t") =
      bytesOf "  emit(\"a\", 1);\n#line 1 \"t\"\nb\n" ∧
    output false (bytesOf "a/b*") (fun _ => 0) (bytesOf "t") =
      bytesOf "  emit(\"a/b*\", 4);\n" ∧
    hasLine (bytesOf "#line ") true
      (output false (bytesOf "a/b*") (fun _ => 0) (bytesOf "t")) = false ∧
    hasLine (bytesOf "#line ") true
      (output false (bytesOf "#line 1") (fun _ => 0) (bytesOf "t")) = false :=
  ⟨by decide,
    (C19_directive_iff_open_marker false (bytesOf "a/*b") (fun _ => 0) (bytesOf "t")).2.2.1.2
      (by decide),
    by decide, by decide, by decide, by decide⟩

/-- C12 (code defect). In `/*a*` the block is not closed. When the byte behind the buffer
is `/`, the copy loop reads it as the lookahead of the last `*`, takes the pair for the
closing marker, does not copy the `*` and `escape` returns the pointer `5`, beyond the
end at `4`; the driver loop is not left at `te`. In `/*-a-`, when the two bytes behind
the buffer are `*` and `/`, the last `-` is not copied, the trim flag is set and the
pointer goes to `7`, beyond the end at `5`. -/
theorem C12_unterminated_block_reads_behind :
    hasPair 42 47 (bytesOf "a*") = false ∧
    escape (bytesOf "/*a*") (fun _ => 47) (bytesOf "t") 2 1 =
      ⟨5, 1, bytesOf "#line 1 \"t\"\na\n"⟩ ∧
    (process (bytesOf "/*a*") (fun _ => 47) (bytesOf "t")).finished = false ∧
    escapeScan (bytesOf "/*-a-") (fun i => if i = 0 then 42 else 47) 3 3 1 [] 0 =
      ⟨7, 1, bytesOf "a", 97, true⟩ := by
  decide

/-- C15 (code defect). The indices read by the scan on the three inputs named in the claim.
On `/*a`, of length 3, the lookahead of the copy loop reads index 3; on `/*a*`, of length
4, it reads index 4; on `/* a -*/` followed by a space, of length 9, the
trailing-whitespace loop reads index 9. -/
theorem C15_reads_at_end_of_buffer :
    (bytesOf "/*a").length = 3 ∧
    scanReads (bytesOf "/*a") (fun _ => 0) (bytesOf "t") = [0, 1, 2, 2, 3] ∧
    (bytesOf "/*a*").length = 4 ∧
    scanReads (bytesOf "/*a*") (fun _ => 0) (bytesOf "t") = [0, 1, 2, 2, 3, 3, 4] ∧
    (bytesOf "/* a -*/ ").length = 9 ∧
    scanReads (bytesOf "/* a -*/ ") (fun _ => 0) (bytesOf "t") =
      [0, 1, 2, 2, 3, 3, 4, 4, 5, 5, 6, 7, 8, 9] := by
  decide

/-- C16 (code defect). On `/*a*`, of length 4, when the byte behind the buffer is `/`, the
one call of `escape` is given the pointer `2` and returns the pointer `5`, beyond the end
of the buffer, and with no amount of fuel is the driver loop left at `te`. -/
theorem C16_escape_returns_beyond_end :
    (bytesOf "/*a*").length = 4 ∧
    escapeSpans (process (bytesOf "/*a*") (fun _ => 47) (bytesOf "t")).calls = [(2, 5)] ∧
    ∀ fuel, (processLoop (bytesOf "/*a*") (fun _ => 47) (bytesOf "t") fuel 0 1 0 0).finished =
      false := by
  refine ⟨by decide, by decide, ?_⟩
  intro fuel
  have he : escape (bytesOf "/*a*") (fun _ => 47) (bytesOf "t") 2 1 =
      ⟨5, 1, bytesOf "#line 1 \"t\"\na\n"⟩ := by decide
  rcases fuel with _ | _ | fuel
  · rfl
  · decide
  · rw [processLoop_open (bytesOf "/*a*") (fun _ => 47) (bytesOf "t") (fuel + 1) 0 1 0 0
      (bytesOf "a*") (by decide)]
    simp only [he]
    rw [processLoop_succ]
    have h1 : ¬ 5 = (bytesOf "/*a*").length := by decide
    have h2 : (bytesOf "/*a*").length < 5 := by decide
    rw [if_neg h1, if_pos h2]

/-- C18. Whatever the literal run and the signedness of `char`, what `flush_litrun` writes
is `  emit("`, the quoted text, `", `, the length of the run and `);` with a newline. The
quoted text consists of printable characters only; each byte of the run contributes to
it either the pair `\"` or characters among which there is no double quote, and read
from the left no double quote ends the literal. The newline at the end is the only one
in the statement. -/
theorem C18_one_line_per_emit (sc : Bool) (run : List Byte) :
    flush_litrun sc run =
      bytesOf "  emit(\"" ++ escRun sc run ++
        (bytesOf "\", " ++ fmtd run.length ++ bytesOf ");\n") ∧
    (∀ x ∈ escRun sc run, 32 ≤ x.val ∧ x.val ≤ 126) ∧
    (∀ b ∈ run, escByte sc b = bytesOf "\\\"" ∨ ∀ x ∈ escByte sc b, x.val ≠ 34) ∧
    hasBareQuote (escRun sc run) = false ∧
    newlines (flush_litrun sc run) = 1 ∧
    (flush_litrun sc run).getLast? = some 10 := by
  have hquote := escRun_no_bare_quote sc run
  have hprint := escRun_printable sc run
  have hq : bytesOf "\\\"" = [92, 34] := by decide
  refine ⟨rfl, hprint, ?_, hquote, ?_, ?_⟩
  · intro b _
    rcases (escByte_printable sc b).2.1 with h | h
    · exact Or.inl (by rw [h, hq])
    · refine Or.inr (fun x hx => ?_)
      rw [List.all_eq_true] at h
      simpa using h x hx
  · have h1 : newlines (escRun sc run) = 0 :=
      newlines_eq_zero _ (fun x hx => by have := hprint x hx; omega)
    have h2 : newlines (fmtd run.length) = 0 :=
      newlines_eq_zero _ (fun x hx => by have := fmtd_range run.length x hx; omega)
    have h3 : newlines (bytesOf "  emit(\"") = 0 := by decide
    have h4 : newlines (bytesOf "\", ") = 0 := by decide
    have h5 : newlines (bytesOf ");\n") = 1 := by decide
    simp only [flush_litrun, newlines_append, h1, h2, h3, h4, h5]
  · have h5 : bytesOf ");\n" = [41, 59] ++ [10] := by decide
    simp only [flush_litrun, h5, ← List.append_assoc, List.getLast?_concat]

/-- C18 (witness). A run of a double quote, a newline, a tab, the byte `0x80` and `A`, with
plain `char` signed. -/
theorem C18_one_line_per_emit_witness :
    flush_litrun true [34, 10, 9, 128, 65] =
      bytesOf "  emit(\"\\\"\\n\\t\\xffffff80A\", 5);\n" ∧
    ((10 : Byte) ∈ ([34, 10, 9, 128, 65] : List Byte) →
      escByte true 10 = bytesOf "\\\"" ∨ ∀ x ∈ escByte true 10, x.val ≠ 34) ∧
    hasBareQuote (escRun true [34, 10, 9, 128, 65]) = false ∧
    newlines (flush_litrun true [34, 10, 9, 128, 65]) = 1 :=
  ⟨by decide,
    (C18_one_line_per_emit true [34, 10, 9, 128, 65]).2.2.1 10,
    (C18_one_line_per_emit true [34, 10, 9, 128, 65]).2.2.2.1,
    (C18_one_line_per_emit true [34, 10, 9, 128, 65]).2.2.2.2.1⟩

end Alt
